import Mathlib

/-!
# Add00/utils: noise engine, vector helpers and grid container

The first and largest part is a shallow embedding of the `Noise` class of
`src/noise/index.js`; the vector helpers of `src/vector/index.js` and the
`Grid` class of `src/grid/index.js` follow it.  JavaScript numbers are modelled
as elements of a linearly ordered field `K` with a floor function (exact
arithmetic: `ℚ` to run the definitions, `ℝ` to use the analytic cosine), so
rounding, `NaN` and the infinities are outside the model, except where a
definition says otherwise (`JsNum` for the octave count, `lcg.randDouble` for
the rounding of the generator).  The 32-bit
integer operators `<<`, `&` and `>>> 0` are modelled on `ℤ` and `ℕ` with
explicit reduction modulo `2 ^ 32`.  `Math.cos`, `Math.PI` and
`Math.random` are the fields of an environment record.
-/

namespace NoiseJs

/-! ## Constants -/

/-- Source: `const PERLIN_YWRAPB = 4`. -/
def PERLIN_YWRAPB : ℕ := 4

/-- Source: `const PERLIN_YWRAP = 1 << PERLIN_YWRAPB`. -/
def PERLIN_YWRAP : ℤ := 2 ^ PERLIN_YWRAPB

/-- Source: `const PERLIN_ZWRAPB = 8`. -/
def PERLIN_ZWRAPB : ℕ := 8

/-- Source: `const PERLIN_ZWRAP = 1 << PERLIN_ZWRAPB`. -/
def PERLIN_ZWRAP : ℤ := 2 ^ PERLIN_ZWRAPB

/-- Source: `const PERLIN_SIZE = 4095`. -/
def PERLIN_SIZE : ℕ := 4095

/-! ## The ambient `Math` object -/

/-- The three members of `Math` the engine uses.  `random i` is the value
returned by the `i`-th call of `Math.random()` made during one method call. -/
structure MathEnv (K : Type) where
  cos : K → K
  pi : K
  random : ℕ → K

/-! ## 32-bit integer operators -/

/-- ECMAScript `ToInt32` on an integer: reduce modulo `2 ^ 32` into
`[-2 ^ 31, 2 ^ 31)`. -/
def toInt32 (n : ℤ) : ℤ := (n + 2147483648) % 4294967296 - 2147483648

/-- ECMAScript `ToUint32` on an integer: reduce modulo `2 ^ 32` into
`[0, 2 ^ 32)`. -/
def toUint32 (n : ℤ) : ℕ := (n % 4294967296).toNat

/-- The operator `a << k` for `k < 32`: multiply by `2 ^ k` and wrap to a
signed 32-bit integer. -/
def shl (a : ℤ) (k : ℕ) : ℤ := toInt32 (a * 2 ^ k)

/-- The operator `a & b`: bitwise conjunction of the two 32-bit patterns,
read back as a signed 32-bit integer. -/
def band (a b : ℤ) : ℤ := toInt32 (Nat.land (toUint32 a) (toUint32 b))

section Generic

variable {K : Type} [LinearOrderedField K]

/-- The integer part kept by the 32-bit coercions: truncation toward zero. -/
def truncate [FloorRing K] (v : K) : ℤ := if 0 ≤ v then ⌊v⌋ else ⌈v⌉

/-- The operator `v >>> 0`: truncate, then reduce to an unsigned 32-bit
integer. -/
def ushr0 [FloorRing K] (v : K) : ℕ := toUint32 (truncate v)

/-- Source: `const scaled_cosine = i => 0.5 * (1.0 - Math.cos(i * Math.PI))`. -/
def scaled_cosine (env : MathEnv K) (i : K) : K :=
  (1 / 2) * (1 - env.cos (i * env.pi))

/-! ## The seeded generator `lcg` of `noiseSeed` -/

namespace lcg

/-- Source: `const m = 4294967296`. -/
def m : ℕ := 4294967296

/-- Source: `const a = 1664525`. -/
def a : ℕ := 1664525

/-- Source: `const c = 1013904223`. -/
def c : ℕ := 1013904223

/-- The two variables `seed, z` captured by the closure. -/
structure State where
  seed : ℕ
  z : ℕ
deriving DecidableEq, Repr

/-- Method `setSeed(val)`: `z = seed = (val == null ? Math.random() * m : val) >>> 0`. -/
def setSeed [FloorRing K] (env : MathEnv K) (val : Option K) : State :=
  let s := ushr0 (match val with
    | none => env.random 0 * (m : K)
    | some v => v)
  { seed := s, z := s }

/-- Method `getSeed()`. -/
def getSeed (g : State) : ℕ := g.seed

/-- Method `rand()`: `z = (a * z + c) % m; return z / m`, as the returned value
and the new closure state. -/
def rand (g : State) : K × State :=
  let z := (a * g.z + c) % m
  ((z : K) / (m : K), { g with z := z })

end lcg

/-! ## The engine -/

/-- The three fields of a `Noise` object; `_perlin = none` is `null`. -/
structure Noise (K : Type) where
  _perlin : Option (List K)
  _perlin_octaves : K
  _perlin_amp_falloff : K

/-- The field initialisers of the class: `null`, `4`, `0.5`. -/
def Noise.new : Noise K :=
  { _perlin := none, _perlin_octaves := 4, _perlin_amp_falloff := 1 / 2 }

/-- The loop `for (let i = 0; i < PERLIN_SIZE + 1; i++) this._perlin[i] = lcg.rand()`
with `n` slots still to write: the slots in index order. -/
def seedFill : ℕ → lcg.State → List K
  | 0, _ => []
  | n + 1, g => (lcg.rand g : K × lcg.State).1 :: seedFill n (lcg.rand g : K × lcg.State).2

/-- Method `noiseSeed(seed)`; `seed = none` is an absent (`null`/`undefined`) argument. -/
def Noise.noiseSeed [FloorRing K] (self : Noise K) (env : MathEnv K) (seed : Option K) : Noise K :=
  { self with _perlin := some (seedFill (PERLIN_SIZE + 1) (lcg.setSeed env seed)) }

/-- Method `noiseDetail(lod, falloff)`. -/
def Noise.noiseDetail (self : Noise K) (lod falloff : K) : Noise K :=
  let self := if lod > 0 then { self with _perlin_octaves := lod } else self
  if falloff > 0 then { self with _perlin_amp_falloff := falloff } else self

/-- The lazy initialisation at the head of `noise`: a lattice of
`PERLIN_SIZE + 1` draws of `Math.random()` when `_perlin == null`. -/
def ensurePerlin (env : MathEnv K) (p : Option (List K)) : List K :=
  match p with
  | none => (List.range (PERLIN_SIZE + 1)).map env.random
  | some l => l

/-- The read `this._perlin[i & PERLIN_SIZE]`.  A read outside the array
(`undefined` in JavaScript) is given the value `0`. -/
def perlinAt (perlin : List K) (i : ℤ) : K :=
  perlin.getD (band i PERLIN_SIZE).toNat 0

/-- The local variables of `noise` that live across octave iterations. -/
structure Octave (K : Type) where
  xi : ℤ
  yi : ℤ
  zi : ℤ
  xf : K
  yf : K
  zf : K
  r : K
  ampl : K

/-- The part of the loop body that reads the lattice: the interpolated
value `n1` just before `r += n1 * ampl`. -/
def octaveValue (env : MathEnv K) (perlin : List K) (s : Octave K) : K :=
  let of1 := s.xi + shl s.yi PERLIN_YWRAPB + shl s.zi PERLIN_ZWRAPB
  let rxf := scaled_cosine env s.xf
  let ryf := scaled_cosine env s.yf
  let n1 := perlinAt perlin of1
  let n1 := n1 + rxf * (perlinAt perlin (of1 + 1) - n1)
  let n2 := perlinAt perlin (of1 + PERLIN_YWRAP)
  let n2 := n2 + rxf * (perlinAt perlin (of1 + PERLIN_YWRAP + 1) - n2)
  let n1 := n1 + ryf * (n2 - n1)
  let of2 := of1 + PERLIN_ZWRAP
  let n2 := perlinAt perlin of2
  let n2 := n2 + rxf * (perlinAt perlin (of2 + 1) - n2)
  let n3 := perlinAt perlin (of2 + PERLIN_YWRAP)
  let n3 := n3 + rxf * (perlinAt perlin (of2 + PERLIN_YWRAP + 1) - n3)
  let n2 := n2 + ryf * (n3 - n2)
  n1 + scaled_cosine env s.zf * (n2 - n1)

/-- The 8 array indices that one run of the loop body reads `this._perlin` at,
in the order of the source: `of & PERLIN_SIZE`, `(of + 1) & PERLIN_SIZE`,
`(of + PERLIN_YWRAP) & PERLIN_SIZE`, `(of + PERLIN_YWRAP + 1) & PERLIN_SIZE`,
and the same four after `of += PERLIN_ZWRAP`. -/
def octaveReads (s : Octave K) : List ℕ :=
  let of1 := s.xi + shl s.yi PERLIN_YWRAPB + shl s.zi PERLIN_ZWRAPB
  let of2 := of1 + PERLIN_ZWRAP
  [(band of1 PERLIN_SIZE).toNat,
    (band (of1 + 1) PERLIN_SIZE).toNat,
    (band (of1 + PERLIN_YWRAP) PERLIN_SIZE).toNat,
    (band (of1 + PERLIN_YWRAP + 1) PERLIN_SIZE).toNat,
    (band of2 PERLIN_SIZE).toNat,
    (band (of2 + 1) PERLIN_SIZE).toNat,
    (band (of2 + PERLIN_YWRAP) PERLIN_SIZE).toNat,
    (band (of2 + PERLIN_YWRAP + 1) PERLIN_SIZE).toNat]

/-- The statements `xi <<= 1; xf *= 2; if (xf >= 1.0) { xi++; xf--; }` on
one axis. -/
def advanceAxis (i : ℤ) (f : K) : ℤ × K :=
  let i := shl i 1
  let f := f * 2
  if f ≥ 1 then (i + 1, f - 1) else (i, f)

/-- One iteration of the octave loop. -/
def octaveBody (env : MathEnv K) (perlin : List K) (falloff : K) (s : Octave K) : Octave K :=
  let n1 := octaveValue env perlin s
  let r := s.r + n1 * s.ampl
  let ampl := s.ampl * falloff
  let x := advanceAxis s.xi s.xf
  let y := advanceAxis s.yi s.yf
  let z := advanceAxis s.zi s.zf
  { xi := x.1, yi := y.1, zi := z.1, xf := x.2, yf := y.2, zf := z.2, r := r, ampl := ampl }

/-- The loop `for (let o = 0; o < this._perlin_octaves; o++) { ... }`, entered
with counter `o` and locals `s`; its result is the locals at exit.  The counter
is counted here in exact natural numbers.  The source counter is a binary64
number, which `o++` increments exactly as long as it is below `2 ^ 53`: for an
octave count of at most `2 ^ 53` this definition is the source loop, and for a
larger count the source loop never exits (see `octaveLoopFuel`, which carries
the binary64 counter) and this definition is the value of the loop run with an
exact counter. -/
def octaveLoop [FloorRing K] (env : MathEnv K) (perlin : List K) (octaves falloff : K) (o : ℕ)
    (s : Octave K) : Octave K :=
  if h : (o : K) < octaves then
    octaveLoop env perlin octaves falloff (o + 1) (octaveBody env perlin falloff s)
  else s
termination_by ⌈octaves⌉₊ - o
decreasing_by
  have : o < ⌈octaves⌉₊ := Nat.lt_ceil.mpr h
  omega

/-- The sign stripping `if (x < 0) { x = -x; }`. -/
def stripSign (x : K) : K := if x < 0 then -x else x

/-- The locals of `noise` on entry to the loop, from the sign-stripped
coordinates. -/
def octaveInit [FloorRing K] (x y z : K) : Octave K :=
  let xi : ℤ := ⌊x⌋
  let yi : ℤ := ⌊y⌋
  let zi : ℤ := ⌊z⌋
  { xi := xi, yi := yi, zi := zi, xf := x - xi, yf := y - yi, zf := z - zi,
    r := 0, ampl := 1 / 2 }

/-- Method `noise(x, y, z)`: the returned value and the engine afterwards.  A call
that omits `y` or `z` passes `0` for it. -/
def Noise.noise [FloorRing K] (self : Noise K) (env : MathEnv K) (x y z : K) : K × Noise K :=
  let perlin := ensurePerlin env self._perlin
  let self := { self with _perlin := some perlin }
  let x := stripSign x
  let y := stripSign y
  let z := stripSign z
  let s := octaveLoop env perlin self._perlin_octaves self._perlin_amp_falloff 0
    (octaveInit x y z)
  (s.r, self)

/-- The facts about `Math.cos` and `Math.PI` that the continuity of the
sampled value rests on: `cos 0 = 1`, `cos π = -1`, values in `[-1, 1]`, slope
at most `1`, and `π ≥ 0`.  The real cosine has them all. -/
structure MathEnv.CosLike (env : MathEnv K) : Prop where
  cos_zero : env.cos 0 = 1
  cos_pi : env.cos env.pi = -1
  cos_mem : ∀ t : K, -1 ≤ env.cos t ∧ env.cos t ≤ 1
  cos_lip : ∀ a b : K, |env.cos a - env.cos b| ≤ |a - b|
  pi_nonneg : 0 ≤ env.pi

/-- The three fractional offsets of a set of loop locals lie in `[0, 1)`. -/
def Octave.FracOk (s : Octave K) : Prop :=
  (0 ≤ s.xf ∧ s.xf < 1) ∧ (0 ≤ s.yf ∧ s.yf < 1) ∧ (0 ≤ s.zf ∧ s.zf < 1)

end Generic

end NoiseJs

/-! ## The octave loop with a caller-supplied octave count

`noiseDetail` stores whatever number passes `lod > 0`, and the loop guard
`o < this._perlin_octaves` is evaluated on that number.  The definitions
below take the octave count in the JavaScript numbers extended by the two
infinities and `NaN`, and run the loop for a bounded number of iterations.
The counter `o` is the binary64 counter of the source: it holds a natural
number and `o++` stops increasing it at `2 ^ 53`. -/

namespace NoiseJs

/-- A JavaScript number as a caller can pass it: a finite value, `Infinity`,
`-Infinity` or `NaN`. -/
inductive JsNum (K : Type) where
  | fin (v : K)
  | posInf
  | negInf
  | nan

section Extended

variable {K : Type} [LinearOrderedField K]

/-- The comparison `n > 0`. -/
def JsNum.gtZero : JsNum K → Bool
  | .fin v => decide (v > 0)
  | .posInf => true
  | .negInf => false
  | .nan => false

/-- The comparison `o < n` for a loop counter `o`. -/
def JsNum.counterLt (o : ℕ) : JsNum K → Bool
  | .fin v => decide ((o : K) < v)
  | .posInf => true
  | .negInf => false
  | .nan => false

/-- The octave field after `noiseDetail(lod, falloff)`:
`if (lod > 0) { this._perlin_octaves = lod; }`. -/
def noiseDetailOctaves (octaves lod : JsNum K) : JsNum K :=
  if lod.gtZero then lod else octaves

/-- The statement `o++` on the binary64 loop counter, which starts at `0`:
below `2 ^ 53` the sum `o + 1` is exact; at `2 ^ 53` the sum `2 ^ 53 + 1` is
not a binary64 number and rounds (to even) back to `2 ^ 53`, so the counter
stays there. -/
def counterInc (o : ℕ) : ℕ := if o < 2 ^ 53 then o + 1 else o

/-- The loop `for (let o = 0; o < this._perlin_octaves; o++) { ... }` entered
with counter `o`, allowed at most `fuel` runs of the body: `some s` are the
locals at exit, `none` means the guard still held when the fuel ran out. -/
def octaveLoopFuel (env : MathEnv K) (perlin : List K) (octaves : JsNum K) (falloff : K) :
    ℕ → ℕ → Octave K → Option (Octave K)
  | 0, o, s => if octaves.counterLt o then none else some s
  | fuel + 1, o, s =>
    if octaves.counterLt o then
      octaveLoopFuel env perlin octaves falloff fuel (counterInc o)
        (octaveBody env perlin falloff s)
    else some s

/-- The value returned by `noise(x, y, z)` on a lattice `perlin` when the
octave loop is allowed at most `fuel` runs of its body. -/
def noiseFuel [FloorRing K] (fuel : ℕ) (env : MathEnv K) (perlin : List K) (octaves : JsNum K)
    (falloff x y z : K) : Option K :=
  (octaveLoopFuel env perlin octaves falloff fuel 0
    (octaveInit (stripSign x) (stripSign y) (stripSign z))).map Octave.r

end Extended

/-- The state update `z = (a * z + c) % m` of `rand()` with the result of the
multiplication and of the addition each passed through `rnd`, the rounding of
a binary64 operation on an integer-valued result.  The remainder `%` of two
binary64 numbers is exact. -/
def lcg.randDouble (rnd : ℤ → ℤ) (z : ℤ) : ℤ :=
  Int.tmod (rnd (rnd ((lcg.a : ℤ) * z) + (lcg.c : ℤ))) (lcg.m : ℤ)

end NoiseJs

/-! # The vector helpers (`src/vector/index.js`) -/

namespace VectorJs

/-- The members of `Math` used by the vector helpers modelled here. -/
structure VecMath (K : Type) where
  cos : K → K
  sin : K → K
  sqrt : K → K

/-- The class `Vector`: the two fields `x` and `y`. -/
structure Vector (K : Type) where
  x : K
  y : K

section

variable {K : Type} [LinearOrderedField K]

/-- Source: `export const vec = (x = 0, y = 0) => new Vector(x, y)`. -/
def vec (x y : K) : Vector K := { x := x, y := y }

/-- Source: `export const veccopy = (v) => vec(v.x, v.y)`. -/
def veccopy (v : Vector K) : Vector K := vec v.x v.y

/-- The expression `y || x` on numbers: `x` when `y` is omitted
(`undefined`, here `none`) or is `0`, otherwise `y`. -/
def orElse (y : Option K) (x : K) : K :=
  match y with
  | none => x
  | some v => if v = 0 then x else v

/-- Source: `vecset = (v, x, y) => { v.x = x; v.y = y || x }`; the vector
after the call. -/
def vecset (_v : Vector K) (x : K) (y : Option K) : Vector K :=
  { x := x, y := orElse y x }

/-- Source: `vecdiv = (v, x, y) => { v.x /= x; v.y /= y || x }`; the vector
after the call.  The function body has no `return`: the call evaluates to
`undefined`. -/
def vecdiv (v : Vector K) (x : K) (y : Option K) : Vector K :=
  { x := v.x / x, y := v.y / orElse y x }

/-- Source: `vecrot = (v, radians) => { const cos = Math.cos(radians), sin =
Math.sin(radians); v.x = cos * v.x - sin * v.y; v.y = sin * v.x + cos * v.y }`;
the vector after the call.  The second assignment reads the `v.x` written by
the first. -/
def vecrot (mth : VecMath K) (v : Vector K) (radians : K) : Vector K :=
  let cos := mth.cos radians
  let sin := mth.sin radians
  let v : Vector K := { v with x := cos * v.x - sin * v.y }
  { v with y := sin * v.x + cos * v.y }

/-- Source: `vecmag = (v) => Math.sqrt(v.x * v.x + v.y * v.y)`. -/
def vecmag (mth : VecMath K) (v : Vector K) : K := mth.sqrt (v.x * v.x + v.y * v.y)

/-- Source: `vecmag2 = (v) => v.x * v.x + v.y * v.y`. -/
def vecmag2 (v : Vector K) : K := v.x * v.x + v.y * v.y

/-- What a call `vecnorm(v, copy)` leaves behind: the value of the call
(`none` is `undefined`), the caller's vector afterwards, and the object the
local variable `v` is bound to at the `return`. -/
structure NormResult (K : Type) where
  returned : Option (Vector K)
  arg : Vector K
  bound : Vector K

/-- Source: `vecnorm = (v, copy = false) => { v = copy ? veccopy(v) : v; const
length = vecmag(v); return length > 0 ? vecdiv(v, length, length) : v }`.
`vecdiv` mutates the object bound to `v` and evaluates to `undefined`. -/
def vecnorm (mth : VecMath K) (v : Vector K) (copy : Bool) : NormResult K :=
  let w := if copy then veccopy v else v
  let length := vecmag mth w
  if length > 0 then
    let w1 := vecdiv w length (some length)
    { returned := none, arg := if copy then v else w1, bound := w1 }
  else
    { returned := some w, arg := v, bound := w }

end

end VectorJs

/-! # The grid container (`src/grid/index.js`) -/

namespace GridJs

/-- The fields of a `Grid`: `_width`, `_height` and the cell array, in which
`none` is a slot never written. -/
structure Grid (α : Type) where
  _width : ℤ
  _height : ℤ
  __cells : List (Option α)

variable {α : Type}

/-- Method `clear()`: `this.__cells = Array(this._width * this._height)`. -/
def Grid.clear (g : Grid α) : Grid α :=
  { g with __cells := List.replicate (g._width * g._height).toNat none }

/-- The constructor: `this._width = Math.abs(width); this._height =
Math.abs(height); this.clear()`. -/
def Grid.new (width height : ℤ) : Grid α :=
  Grid.clear { _width := |width|, _height := |height|, __cells := [] }

/-- Method `__clip(n, min, max)`: `Math.min(Math.max(n, min), max)`. -/
def Grid.__clip (n min max : ℤ) : ℤ := Min.min (Max.max n min) max

/-- Method `clipX(x)`: `this.__clip(x, 0, this._width - 1)`. -/
def Grid.clipX (g : Grid α) (x : ℤ) : ℤ := Grid.__clip x 0 (g._width - 1)

/-- Method `clipY(y)`: `this.__clip(y, 0, this._height - 1)`. -/
def Grid.clipY (g : Grid α) (y : ℤ) : ℤ := Grid.__clip y 0 (g._height - 1)

/-- Method `__getIndex(x, y)`: clip both coordinates, then
`x + y * this._width`. -/
def Grid.__getIndex (g : Grid α) (x y : ℤ) : ℤ :=
  let x := g.clipX x
  let y := g.clipY y
  x + y * g._width

/-- Method `set(x, y, value)`: `this.__cells[this.__getIndex(x, y)] = value`. -/
def Grid.set (g : Grid α) (x y : ℤ) (value : α) : Grid α :=
  { g with __cells := g.__cells.set (g.__getIndex x y).toNat (some value) }

/-- Method `get(x, y)`: `this.__cells[this.__getIndex(x, y)] || null`, with
`truthy` the truthiness of a stored value; `none` is `null`. -/
def Grid.get (truthy : α → Bool) (g : Grid α) (x y : ℤ) : Option α :=
  match g.__cells.getD (g.__getIndex x y).toNat none with
  | some v => if truthy v then some v else none
  | none => none

end GridJs

/-! ## Specification-side definitions -/

namespace NoiseSpec

/-- The recurrence of the seeded generator as the specification words it:
`z 0 = s mod 2 ^ 32` and `z (k + 1) = (1664525 * z k + 1013904223) mod 2 ^ 32`. -/
def z (s : ℤ) : ℕ → ℕ
  | 0 => (s % 2 ^ 32).toNat
  | k + 1 => (1664525 * z s k + 1013904223) % 2 ^ 32

/-- The lattice entry at a flat index wrapped to `0..4095`, as the
specification writes `lattice[n mod 4096]`. -/
def latticeAt {K : Type} [Zero K] (lattice : List K) (n : ℤ) : K :=
  lattice.getD (n % 4096).toNat 0

/-- The interpolation `a + t * (b - a)` between two values. -/
def mix {K : Type} [Field K] (a b t : K) : K := a + t * (b - a)

/-- The interpolation across the 8 corners of the cell with flat index
`base`, as the specification describes it: along X at the four corners
`{base, base + 16} × {base, base + 256}`, then along Y, then along Z, with the
smoothed weights `wx`, `wy`, `wz`. -/
def cellValue {K : Type} [Field K] (lattice : List K) (base : ℤ) (wx wy wz : K) : K :=
  mix
    (mix (mix (latticeAt lattice base) (latticeAt lattice (base + 1)) wx)
      (mix (latticeAt lattice (base + 16)) (latticeAt lattice (base + 16 + 1)) wx) wy)
    (mix (mix (latticeAt lattice (base + 256)) (latticeAt lattice (base + 256 + 1)) wx)
      (mix (latticeAt lattice (base + 256 + 16)) (latticeAt lattice (base + 256 + 16 + 1)) wx)
      wy)
    wz

/-- The value of octave `k` at a point with non-negative coordinates
`(a, b, c)`, as the specification describes it: each coordinate scaled by
`2 ^ k` is split into an integer cell index and a fractional offset, the
offsets are smoothed, and the lattice is interpolated over the cell. -/
def octaveValueAt {K : Type} [LinearOrderedField K] [FloorRing K] (env : NoiseJs.MathEnv K)
    (lattice : List K) (a b c : K) (k : ℕ) : K :=
  cellValue lattice (⌊a * 2 ^ k⌋ + 16 * ⌊b * 2 ^ k⌋ + 256 * ⌊c * 2 ^ k⌋)
    (NoiseJs.scaled_cosine env (Int.fract (a * 2 ^ k)))
    (NoiseJs.scaled_cosine env (Int.fract (b * 2 ^ k)))
    (NoiseJs.scaled_cosine env (Int.fract (c * 2 ^ k)))

end NoiseSpec

namespace NoiseJs

/-! ## Integer facts -/

theorem specZ_42_one : NoiseSpec.z 42 1 = 1083814273 := by
  decide

theorem band_zero_size : band 0 (PERLIN_SIZE : ℤ) = 0 := by
  decide

theorem shl_zero (k : ℕ) : shl 0 k = 0 := by
  simp [shl, toInt32]

section Lemmas

variable {K : Type} [LinearOrderedField K]

/-! ## The seeded generator -/

theorem lcg.rand_fst (g : lcg.State) :
    (lcg.rand g : K × lcg.State).1 = (((lcg.a * g.z + lcg.c) % lcg.m : ℕ) : K) / (lcg.m : K) := rfl

theorem lcg.rand_fst_mem (g : lcg.State) :
    0 ≤ (lcg.rand g : K × lcg.State).1 ∧ (lcg.rand g : K × lcg.State).1 < 1 := by
  have hm : (0 : K) < (lcg.m : K) := by norm_num [lcg.m]
  rw [lcg.rand_fst]
  refine ⟨div_nonneg (Nat.cast_nonneg _) hm.le, ?_⟩
  rw [div_lt_one hm]
  exact_mod_cast Nat.mod_lt _ (by norm_num [lcg.m])

theorem seedFill_length (n : ℕ) (g : lcg.State) : (seedFill n g : List K).length = n := by
  induction n generalizing g with
  | zero => rfl
  | succ n ih => simp [seedFill, ih]

theorem seedFill_mem (n : ℕ) (g : lcg.State) (v : K) (hv : v ∈ (seedFill n g : List K)) :
    0 ≤ v ∧ v < 1 := by
  induction n generalizing g with
  | zero => simp [seedFill] at hv
  | succ n ih =>
    simp only [seedFill, List.mem_cons] at hv
    rcases hv with rfl | hv
    · exact lcg.rand_fst_mem g
    · exact ih _ hv

theorem lcg.m_cast : ((lcg.m : ℕ) : K) = 4294967296 := by
  norm_num [lcg.m]

theorem specZ_succ (s : ℤ) (k : ℕ) :
    NoiseSpec.z s (k + 1) = (lcg.a * NoiseSpec.z s k + lcg.c) % lcg.m := rfl

/-- Slot `i` of the fill holds the `(i + 1)`-th term of the recurrence that
starts at the generator state on entry. -/
theorem seedFill_getElem? (s : ℤ) (n : ℕ) (g : lcg.State) (k i : ℕ)
    (hg : g.z = NoiseSpec.z s k) (hi : i < n) :
    (seedFill n g : List K)[i]? = some ((NoiseSpec.z s (k + i + 1) : K) / 4294967296) := by
  induction n generalizing g k i with
  | zero => omega
  | succ n ih =>
    have hstep : (lcg.rand g : K × lcg.State).2.z = NoiseSpec.z s (k + 1) := by
      rw [specZ_succ, ← hg]
      rfl
    cases i with
    | zero =>
      rw [seedFill, List.getElem?_cons_zero, lcg.rand_fst, lcg.m_cast, Nat.add_zero,
        specZ_succ, ← hg]
    | succ i =>
      have := ih (lcg.rand g : K × lcg.State).2 (k + 1) i hstep (by omega)
      have e : k + 1 + i + 1 = k + (i + 1) + 1 := by omega
      rw [seedFill, List.getElem?_cons_succ, this, e]

theorem truncate_intCast [FloorRing K] (s : ℤ) : truncate (s : K) = s := by
  unfold truncate
  split <;> simp

theorem setSeed_intCast_z [FloorRing K] (env : MathEnv K) (s : ℤ) :
    (lcg.setSeed env (some (s : K))).z = NoiseSpec.z s 0 := by
  simp [lcg.setSeed, ushr0, truncate_intCast, toUint32, NoiseSpec.z]

/-- The first value drawn after `setSeed(s)` for an integer `s`. -/
theorem rand_setSeed_intCast [FloorRing K] (env : MathEnv K) (s : ℤ) :
    (lcg.rand (lcg.setSeed env (some (s : K))) : K × lcg.State).1
      = (NoiseSpec.z s 1 : K) / 4294967296 := by
  rw [lcg.rand_fst, setSeed_intCast_z, ← specZ_succ, lcg.m_cast]

theorem seedFill_head_mem (n : ℕ) (g : lcg.State) :
    (lcg.rand g : K × lcg.State).1 ∈ (seedFill (n + 1) g : List K) := by
  rw [seedFill]
  exact List.mem_cons_self _ _

/-! ## The octave loop -/

/-- The loop entered with counter `o` runs the body once for every natural
number from `o` up to, but excluding, the octave count. -/
theorem octaveLoop_eq_iterate [FloorRing K] (env : MathEnv K) (perlin : List K)
    (octaves falloff : K) (o : ℕ) (s : Octave K) :
    octaveLoop env perlin octaves falloff o s
      = (octaveBody env perlin falloff)^[⌈octaves⌉₊ - o] s := by
  generalize hn : ⌈octaves⌉₊ - o = n
  induction n generalizing o s with
  | zero =>
    have h : ¬ (o : K) < octaves := fun h => by
      have := Nat.lt_ceil.mpr h
      omega
    rw [octaveLoop, dif_neg h, Function.iterate_zero, id]
  | succ n ih =>
    have h : (o : K) < octaves := Nat.lt_ceil.mp (by omega)
    rw [octaveLoop, dif_pos h, ih (o + 1) _ (by omega), Function.iterate_succ_apply]

theorem octaveBody_congr_env (env : MathEnv K) (rnd1 rnd2 : ℕ → K) (perlin : List K)
    (falloff : K) :
    octaveBody { env with random := rnd1 } perlin falloff
      = octaveBody { env with random := rnd2 } perlin falloff := rfl

theorem noise_congr_env [FloorRing K] (env : MathEnv K) (rnd1 rnd2 : ℕ → K) (e : Noise K)
    (l : List K) (he : e._perlin = some l) (x y z : K) :
    e.noise { env with random := rnd1 } x y z = e.noise { env with random := rnd2 } x y z := by
  simp only [Noise.noise, he, ensurePerlin, octaveLoop_eq_iterate]
  rw [octaveBody_congr_env env rnd1 rnd2]

/-- The locals after `k` runs of the body are the locals with which the loop
is entered at counter `k`, as long as `k` does not exceed the number of runs. -/
theorem octaveLoop_reach [FloorRing K] (env : MathEnv K) (perlin : List K)
    (octaves falloff : K) (k : ℕ) (hk : k ≤ ⌈octaves⌉₊) (s : Octave K) :
    octaveLoop env perlin octaves falloff 0 s
      = octaveLoop env perlin octaves falloff k ((octaveBody env perlin falloff)^[k] s) := by
  rw [octaveLoop_eq_iterate, octaveLoop_eq_iterate, ← Function.iterate_add_apply]
  congr 2
  omega

theorem stripSign_neg (x : K) : stripSign (-x) = stripSign x := by
  unfold stripSign
  split_ifs with h1 h2 h2
  · linarith [neg_lt_zero.mp h1]
  · rw [neg_neg]
  · rfl
  · have : x = 0 := le_antisymm (by linarith [neg_nonneg.mp (not_lt.mp h1)]) (not_lt.mp h2)
    rw [this, neg_zero]

theorem advanceAxis_snd_mem (i : ℤ) (f : K) (h0 : 0 ≤ f) (h1 : f < 1) :
    0 ≤ (advanceAxis i f).2 ∧ (advanceAxis i f).2 < 1 := by
  unfold advanceAxis
  simp only
  split_ifs with h
  · exact ⟨by dsimp only; linarith, by dsimp only; linarith⟩
  · exact ⟨by dsimp only; linarith, by dsimp only; linarith [not_le.mp h]⟩

theorem octaveInit_fracOk [FloorRing K] (x y z : K) : (octaveInit x y z).FracOk :=
  ⟨⟨Int.fract_nonneg x, Int.fract_lt_one x⟩, ⟨Int.fract_nonneg y, Int.fract_lt_one y⟩,
    ⟨Int.fract_nonneg z, Int.fract_lt_one z⟩⟩

theorem octaveBody_fracOk (env : MathEnv K) (perlin : List K) (falloff : K) (s : Octave K)
    (hs : s.FracOk) : (octaveBody env perlin falloff s).FracOk :=
  ⟨advanceAxis_snd_mem _ _ hs.1.1 hs.1.2, advanceAxis_snd_mem _ _ hs.2.1.1 hs.2.1.2,
    advanceAxis_snd_mem _ _ hs.2.2.1 hs.2.2.2⟩

theorem iterate_fracOk (env : MathEnv K) (perlin : List K) (falloff : K) (s : Octave K)
    (hs : s.FracOk) (k : ℕ) : ((octaveBody env perlin falloff)^[k] s).FracOk := by
  induction k with
  | zero => exact hs
  | succ k ih =>
    rw [Function.iterate_succ_apply']
    exact octaveBody_fracOk env perlin falloff _ ih

/-! ## Sampling at the origin -/

theorem perlinAt_zero (perlin : List K) : perlinAt perlin 0 = perlin.getD 0 0 := by
  rw [perlinAt, band_zero_size]
  rfl

theorem scaled_cosine_zero (env : MathEnv K) (hcos : env.cos 0 = 1) :
    scaled_cosine env 0 = 0 := by
  simp [scaled_cosine, hcos]

theorem advanceAxis_zero (i : ℤ) : advanceAxis i (0 : K) = (shl i 1, 0) := by
  simp [advanceAxis]

/-- One run of the body on locals that sit on the lattice point `0`: every
interpolation weight is zero and the indices and offsets stay zero. -/
theorem octaveBody_origin (env : MathEnv K) (hcos : env.cos 0 = 1) (perlin : List K)
    (falloff r ampl : K) :
    octaveBody env perlin falloff
        { xi := 0, yi := 0, zi := 0, xf := 0, yf := 0, zf := 0, r := r, ampl := ampl }
      = { xi := 0, yi := 0, zi := 0, xf := 0, yf := 0, zf := 0,
          r := r + perlin.getD 0 0 * ampl, ampl := ampl * falloff } := by
  simp only [octaveBody, octaveValue, advanceAxis_zero, shl_zero, scaled_cosine_zero env hcos,
    add_zero, zero_mul, perlinAt_zero]

theorem iterate_origin (env : MathEnv K) (hcos : env.cos 0 = 1) (perlin : List K)
    (falloff : K) (k : ℕ) (r ampl : K) :
    (octaveBody env perlin falloff)^[k]
        { xi := 0, yi := 0, zi := 0, xf := 0, yf := 0, zf := 0, r := r, ampl := ampl }
      = { xi := 0, yi := 0, zi := 0, xf := 0, yf := 0, zf := 0,
          r := r + perlin.getD 0 0 * ampl * ∑ o in Finset.range k, falloff ^ o,
          ampl := ampl * falloff ^ k } := by
  induction k generalizing r ampl with
  | zero => simp
  | succ k ih =>
    have hs : ∑ o in Finset.range k, falloff ^ (o + 1)
        = (∑ o in Finset.range k, falloff ^ o) * falloff := by
      rw [Finset.sum_mul]
      exact Finset.sum_congr rfl fun o _ => pow_succ falloff o
    rw [Function.iterate_succ_apply, octaveBody_origin env hcos, ih, Finset.sum_range_succ', hs]
    simp only [Octave.mk.injEq, true_and]
    constructor <;> ring

theorem octaveInit_zero [FloorRing K] :
    octaveInit (stripSign (0 : K)) (stripSign 0) (stripSign 0)
      = { xi := 0, yi := 0, zi := 0, xf := 0, yf := 0, zf := 0, r := 0, ampl := 1 / 2 } := by
  simp [octaveInit, stripSign]

/-- The value of `noise(0, 0, 0)` on an engine that holds a lattice: the first
slot, weighted by the sum of the octave amplitudes. -/
theorem noise_origin [FloorRing K] (env : MathEnv K) (hcos : env.cos 0 = 1) (e : Noise K)
    (l : List K) (hl : e._perlin = some l) :
    (e.noise env 0 0 0).1
      = l.getD 0 0 * (1 / 2)
          * ∑ o in Finset.range ⌈e._perlin_octaves⌉₊, e._perlin_amp_falloff ^ o := by
  simp only [Noise.noise, hl, ensurePerlin, octaveLoop_eq_iterate, octaveInit_zero,
    iterate_origin env hcos, Nat.sub_zero, zero_add]

theorem seedFill_getD_zero [FloorRing K] (env : MathEnv K) (s : ℤ) (n : ℕ) :
    (seedFill (n + 1) (lcg.setSeed env (some (s : K))) : List K).getD 0 0
      = (NoiseSpec.z s 1 : K) / 4294967296 := by
  rw [seedFill, List.getD_cons_zero, rand_setSeed_intCast]

/-- The value of `noise(0, 0, 0)` right after `noiseSeed(s)` for an integer `s`. -/
theorem noise_origin_seeded [FloorRing K] (env : MathEnv K) (hcos : env.cos 0 = 1)
    (e : Noise K) (s : ℤ) :
    ((e.noiseSeed env (some (s : K))).noise env 0 0 0).1
      = (NoiseSpec.z s 1 : K) / 4294967296 * (1 / 2)
          * ∑ o in Finset.range ⌈e._perlin_octaves⌉₊, e._perlin_amp_falloff ^ o := by
  rw [noise_origin env hcos _ _ rfl, seedFill_getD_zero]
  rfl

/-- After `noiseSeed(42)`: the first slot of the lattice, and the value of
`noise(0, 0, 0)` as a multiple of it. -/
theorem noise_origin_seed42 [FloorRing K] (env : MathEnv K) (hcos : env.cos 0 = 1)
    (e : Noise K) :
    (∃ l : List K, (e.noiseSeed env (some 42))._perlin = some l ∧
        l[0]? = some (1083814273 / 4294967296)) ∧
      ((e.noiseSeed env (some 42)).noise env 0 0 0).1
        = (1083814273 / 4294967296) * (1 / 2)
            * ∑ o in Finset.range ⌈e._perlin_octaves⌉₊, e._perlin_amp_falloff ^ o := by
  have h42 : (42 : K) = ((42 : ℤ) : K) := by norm_num
  rw [h42]
  refine ⟨⟨_, rfl, ?_⟩, ?_⟩
  · rw [seedFill_getElem? (K := K) 42 _ _ 0 0 (setSeed_intCast_z env 42) (Nat.succ_pos _),
      specZ_42_one]
    norm_num
  · rw [noise_origin_seeded env hcos, specZ_42_one]
    norm_num

/-! ## Bounds on the sampled value -/

/-- A linear interpolation `a + t * (b - a)` with weight `t` in `[0, 1]`
between two values of `[0, 1)` stays in `[0, 1)`. -/
theorem lerp_mem (a b t : K) (ha : 0 ≤ a ∧ a < 1) (hb : 0 ≤ b ∧ b < 1)
    (ht : 0 ≤ t ∧ t ≤ 1) : 0 ≤ a + t * (b - a) ∧ a + t * (b - a) < 1 := by
  rcases le_total a b with hab | hab
  · have h1 : 0 ≤ t * (b - a) := mul_nonneg ht.1 (sub_nonneg.mpr hab)
    have h2 : t * (b - a) ≤ 1 * (b - a) :=
      mul_le_mul_of_nonneg_right ht.2 (sub_nonneg.mpr hab)
    exact ⟨by linarith [ha.1], by linarith [hb.2]⟩
  · have h1 : 0 ≤ t * (a - b) := mul_nonneg ht.1 (sub_nonneg.mpr hab)
    have h2 : t * (a - b) ≤ 1 * (a - b) :=
      mul_le_mul_of_nonneg_right ht.2 (sub_nonneg.mpr hab)
    have h3 : t * (b - a) = -(t * (a - b)) := by ring
    exact ⟨by linarith [hb.1], by linarith [ha.2]⟩

theorem scaled_cosine_mem (env : MathEnv K) (hcos : ∀ t : K, -1 ≤ env.cos t ∧ env.cos t ≤ 1)
    (i : K) : 0 ≤ scaled_cosine env i ∧ scaled_cosine env i ≤ 1 := by
  have h := hcos (i * env.pi)
  unfold scaled_cosine
  exact ⟨by linarith [h.2], by linarith [h.1]⟩

theorem perlinAt_mem (perlin : List K) (hmem : ∀ v : K, v ∈ perlin → 0 ≤ v ∧ v < 1) (i : ℤ) :
    0 ≤ perlinAt perlin i ∧ perlinAt perlin i < 1 := by
  rw [perlinAt, List.getD_eq_getElem?_getD]
  cases h : perlin[(band i (PERLIN_SIZE : ℤ)).toNat]? with
  | none => exact ⟨le_refl _, zero_lt_one⟩
  | some v => exact hmem v (List.getElem?_mem h)

theorem octaveValue_mem (env : MathEnv K) (hcos : ∀ t : K, -1 ≤ env.cos t ∧ env.cos t ≤ 1)
    (perlin : List K) (hmem : ∀ v : K, v ∈ perlin → 0 ≤ v ∧ v < 1) (s : Octave K) :
    0 ≤ octaveValue env perlin s ∧ octaveValue env perlin s < 1 := by
  have hp := perlinAt_mem perlin hmem
  have hc := scaled_cosine_mem env hcos
  unfold octaveValue
  exact lerp_mem _ _ _
    (lerp_mem _ _ _ (lerp_mem _ _ _ (hp _) (hp _) (hc _))
      (lerp_mem _ _ _ (hp _) (hp _) (hc _)) (hc _))
    (lerp_mem _ _ _ (lerp_mem _ _ _ (hp _) (hp _) (hc _))
      (lerp_mem _ _ _ (hp _) (hp _) (hc _)) (hc _))
    (hc _)

/-- After `k` runs of the body the amplitude has been multiplied by
`falloff ^ k` and the running total has grown by at most the sum of the
amplitudes used. -/
theorem iterate_r_bound (env : MathEnv K) (hcos : ∀ t : K, -1 ≤ env.cos t ∧ env.cos t ≤ 1)
    (perlin : List K) (hmem : ∀ v : K, v ∈ perlin → 0 ≤ v ∧ v < 1) (falloff : K)
    (hf : 0 ≤ falloff) (s : Octave K) (ha : 0 ≤ s.ampl) (k : ℕ) :
    ((octaveBody env perlin falloff)^[k] s).ampl = s.ampl * falloff ^ k ∧
      s.r ≤ ((octaveBody env perlin falloff)^[k] s).r ∧
      ((octaveBody env perlin falloff)^[k] s).r
        ≤ s.r + s.ampl * ∑ o in Finset.range k, falloff ^ o := by
  induction k with
  | zero => simp
  | succ k ih =>
    obtain ⟨h1, h2, h3⟩ := ih
    have hv := octaveValue_mem env hcos perlin hmem ((octaveBody env perlin falloff)^[k] s)
    have hak : 0 ≤ ((octaveBody env perlin falloff)^[k] s).ampl := by
      rw [h1]
      exact mul_nonneg ha (pow_nonneg hf k)
    have hr : ((octaveBody env perlin falloff)^[k + 1] s).r
        = ((octaveBody env perlin falloff)^[k] s).r
          + octaveValue env perlin ((octaveBody env perlin falloff)^[k] s)
            * ((octaveBody env perlin falloff)^[k] s).ampl := by
      rw [Function.iterate_succ_apply']
      rfl
    have hamp : ((octaveBody env perlin falloff)^[k + 1] s).ampl
        = ((octaveBody env perlin falloff)^[k] s).ampl * falloff := by
      rw [Function.iterate_succ_apply']
      rfl
    have hlo : 0 ≤ octaveValue env perlin ((octaveBody env perlin falloff)^[k] s)
        * ((octaveBody env perlin falloff)^[k] s).ampl := mul_nonneg hv.1 hak
    have hhi : octaveValue env perlin ((octaveBody env perlin falloff)^[k] s)
        * ((octaveBody env perlin falloff)^[k] s).ampl
          ≤ 1 * ((octaveBody env perlin falloff)^[k] s).ampl :=
      mul_le_mul_of_nonneg_right hv.2.le hak
    refine ⟨?_, ?_, ?_⟩
    · rw [hamp, h1, pow_succ]
      ring
    · rw [hr]
      linarith
    · rw [hr, Finset.sum_range_succ, mul_add, ← h1]
      linarith

/-- With 4 octaves and falloff `1/2` the value of `noise` is between `0` and
`15/16 = 1/2 + 1/4 + 1/8 + 1/16`. -/
theorem noise_default_bound [FloorRing K] (env : MathEnv K)
    (hcos : ∀ t : K, -1 ≤ env.cos t ∧ env.cos t ≤ 1) (e : Noise K) (l : List K)
    (hl : e._perlin = some l) (hmem : ∀ v : K, v ∈ l → 0 ≤ v ∧ v < 1)
    (ho : e._perlin_octaves = 4) (hf : e._perlin_amp_falloff = 1 / 2) (x y z : K) :
    0 ≤ (e.noise env x y z).1 ∧ (e.noise env x y z).1 ≤ 15 / 16 := by
  obtain ⟨-, h2, h3⟩ := iterate_r_bound env hcos l hmem (1 / 2) (by norm_num)
    (octaveInit (stripSign x) (stripSign y) (stripSign z)) (by norm_num [octaveInit]) 4
  have hr : (octaveInit (stripSign x) (stripSign y) (stripSign z)).r = 0 := rfl
  have ha : (octaveInit (stripSign x) (stripSign y) (stripSign z)).ampl = 1 / 2 := rfl
  rw [hr] at h2 h3
  rw [ha] at h3
  simp only [Noise.noise, hl, ensurePerlin, octaveLoop_eq_iterate, ho, hf, Nat.ceil_ofNat,
    Nat.sub_zero]
  refine ⟨h2, h3.trans ?_⟩
  norm_num [Finset.sum_range_succ]

theorem noiseDetail_of_pos (e : Noise K) (lod falloff : K) (hl : 0 < lod) (hf : 0 < falloff) :
    e.noiseDetail lod falloff
      = { _perlin := e._perlin, _perlin_octaves := lod, _perlin_amp_falloff := falloff } := by
  simp [Noise.noiseDetail, hl, hf]

/-- After `noiseSeed(42)` and `noiseDetail(lod, falloff)` with both arguments
positive: the value of `noise(0, 0, 0)`. -/
theorem noise_origin_seed42_detail [FloorRing K] (env : MathEnv K) (hcos : env.cos 0 = 1)
    (e : Noise K) (lod falloff : K) (hl : 0 < lod) (hf : 0 < falloff) :
    (((e.noiseSeed env (some 42)).noiseDetail lod falloff).noise env 0 0 0).1
      = (1083814273 / 4294967296) * (1 / 2) * ∑ o in Finset.range ⌈lod⌉₊, falloff ^ o := by
  have h := (noise_origin_seed42 env hcos
    { _perlin := e._perlin, _perlin_octaves := lod, _perlin_amp_falloff := falloff }).2
  rw [noiseDetail_of_pos _ _ _ hl hf]
  exact h

end Lemmas

/-! ## The claims -/

section Claims

variable {K : Type} [LinearOrderedField K]

/-- C1 (seed determinism): two engines with the same octave count and
falloff, whatever lattices they held before and whatever the ambient random
source returns, hold the same lattice after `noiseSeed(s)` and from then on
return the same value, and stay in the same state, for every `noise(x, y, z)`. -/
theorem C1_noiseSeed_deterministic [FloorRing K] (env : MathEnv K) (rnd1 rnd2 : ℕ → K)
    (e1 e2 : Noise K) (s : K)
    (ho : e1._perlin_octaves = e2._perlin_octaves)
    (hf : e1._perlin_amp_falloff = e2._perlin_amp_falloff) :
    (e1.noiseSeed { env with random := rnd1 } (some s))._perlin
        = (e2.noiseSeed { env with random := rnd2 } (some s))._perlin ∧
      ∀ x y z : K,
        (e1.noiseSeed { env with random := rnd1 } (some s)).noise { env with random := rnd1 } x y z
          = (e2.noiseSeed { env with random := rnd2 } (some s)).noise
              { env with random := rnd2 } x y z := by
  have hE : e1.noiseSeed { env with random := rnd1 } (some s)
      = e2.noiseSeed { env with random := rnd2 } (some s) := by
    cases e1
    cases e2
    simp only [Noise.noiseSeed, lcg.setSeed] at *
    simp [ho, hf]
  refine ⟨by rw [hE], fun x y z => ?_⟩
  rw [hE]
  exact noise_congr_env env rnd1 rnd2 _ _ rfl x y z

/-- Witness for C1: a fresh engine and one holding an empty lattice, seeded
with 42 under different random sources, agree at `(1, 2, 3)`. -/
theorem C1_noiseSeed_deterministic_witness :
    ((Noise.new : Noise ℝ).noiseSeed ⟨Real.cos, Real.pi, fun _ => 0⟩ (some 42))._perlin
        = (({ Noise.new with _perlin := some [] } : Noise ℝ).noiseSeed
            ⟨Real.cos, Real.pi, fun _ => 1 / 2⟩ (some 42))._perlin ∧
      ((Noise.new : Noise ℝ).noiseSeed ⟨Real.cos, Real.pi, fun _ => 0⟩ (some 42)).noise
          ⟨Real.cos, Real.pi, fun _ => 0⟩ 1 2 3
        = (({ Noise.new with _perlin := some [] } : Noise ℝ).noiseSeed
            ⟨Real.cos, Real.pi, fun _ => 1 / 2⟩ (some 42)).noise
            ⟨Real.cos, Real.pi, fun _ => 1 / 2⟩ 1 2 3 :=
  have h := C1_noiseSeed_deterministic (⟨Real.cos, Real.pi, fun _ => 0⟩ : MathEnv ℝ)
    (fun _ => 0) (fun _ => 1 / 2) Noise.new { Noise.new with _perlin := some [] } 42 rfl rfl
  ⟨h.1, h.2 1 2 3⟩

/-- C2 (seeded lattice contents): for an integer seed `s`, the lattice after
`noiseSeed(s)` has 4096 entries and entry `i` is `z (i + 1) / 2 ^ 32` for the
recurrence `z` started at `s mod 2 ^ 32`. -/
theorem C2_noiseSeed_lattice [FloorRing K] (env : MathEnv K) (e : Noise K) (s : ℤ) :
    ∃ l : List K, (e.noiseSeed env (some (s : K)))._perlin = some l ∧ l.length = 4096 ∧
      ∀ i : ℕ, i < 4096 → l[i]? = some ((NoiseSpec.z s (i + 1) : K) / 2 ^ 32) := by
  refine ⟨_, rfl, seedFill_length _ _, fun i hi => ?_⟩
  have h := seedFill_getElem? (K := K) s (PERLIN_SIZE + 1) (lcg.setSeed env (some (s : K))) 0 i
    (setSeed_intCast_z env s) hi
  rw [h, Nat.zero_add]
  norm_num

/-- Witness for C2: seed 42 gives `lattice[0] = 1083814273 / 4294967296`. -/
theorem C2_noiseSeed_lattice_witness :
    ∃ l : List ℝ,
      ((Noise.new : Noise ℝ).noiseSeed ⟨Real.cos, Real.pi, fun _ => 0⟩
          (some ((42 : ℤ) : ℝ)))._perlin = some l ∧
        l.length = 4096 ∧ (0 < 4096 ∧ l[0]? = some (1083814273 / 4294967296)) := by
  obtain ⟨l, h1, h2, h3⟩ :=
    C2_noiseSeed_lattice (⟨Real.cos, Real.pi, fun _ => 0⟩ : MathEnv ℝ) Noise.new 42
  refine ⟨l, h1, h2, by decide, ?_⟩
  rw [h3 0 (by decide), specZ_42_one]
  norm_num

/-- C3 (generator range): every value `rand()` returns, from any closure
state and hence after any seed and any number of calls, is in `[0, 1)`, and so
is every entry of the lattice written by `noiseSeed`. -/
theorem C3_rand_range [FloorRing K] (env : MathEnv K) (val : Option K) :
    (∀ g : lcg.State, 0 ≤ (lcg.rand g : K × lcg.State).1 ∧ (lcg.rand g : K × lcg.State).1 < 1) ∧
      (∀ (n : ℕ) (v : K), v ∈ (seedFill n (lcg.setSeed env val) : List K) → 0 ≤ v ∧ v < 1) ∧
      ∀ e : Noise K, ∃ l : List K, (e.noiseSeed env val)._perlin = some l ∧ l.length = 4096 ∧
        ∀ v : K, v ∈ l → 0 ≤ v ∧ v < 1 :=
  ⟨lcg.rand_fst_mem, fun n v hv => seedFill_mem n _ v hv,
    fun _ => ⟨_, rfl, seedFill_length _ _, fun v hv => seedFill_mem _ _ v hv⟩⟩

/-- Witness for C3: the first value drawn after `setSeed(42)`. -/
theorem C3_rand_range_witness :
    (1083814273 / 4294967296 : ℝ)
        ∈ (seedFill 1 (lcg.setSeed (⟨Real.cos, Real.pi, fun _ => 0⟩ : MathEnv ℝ)
            (some ((42 : ℤ) : ℝ))) : List ℝ) ∧
      (0 ≤ (1083814273 / 4294967296 : ℝ) ∧ (1083814273 / 4294967296 : ℝ) < 1) := by
  have h := rand_setSeed_intCast (⟨Real.cos, Real.pi, fun _ => 0⟩ : MathEnv ℝ) 42
  rw [specZ_42_one, Nat.cast_ofNat] at h
  have hm := seedFill_head_mem (K := ℝ) 0
    (lcg.setSeed (⟨Real.cos, Real.pi, fun _ => 0⟩ : MathEnv ℝ) (some ((42 : ℤ) : ℝ)))
  rw [h] at hm
  exact ⟨hm, (C3_rand_range (⟨Real.cos, Real.pi, fun _ => 0⟩ : MathEnv ℝ)
    (some ((42 : ℤ) : ℝ))).2.1 1 _ hm⟩

/-- C4 (mirror symmetry): `noise` returns the same value, and leaves the
same engine, when the sign of any one coordinate, or of all three, is flipped. -/
theorem C4_noise_mirror [FloorRing K] (env : MathEnv K) (e : Noise K) (x y z : K) :
    e.noise env x y z = e.noise env (-x) (-y) (-z) ∧
      e.noise env x y z = e.noise env (-x) y z ∧
      e.noise env x y z = e.noise env x (-y) z ∧
      e.noise env x y z = e.noise env x y (-z) := by
  simp only [Noise.noise, stripSign_neg, and_self]

/-- C5 (configuration no-ops): `noiseDetail(lod, falloff)` sets the octave
count to `lod` exactly when `lod > 0` and the falloff to `falloff` exactly when
`falloff > 0`, each independently of the other, and never touches the lattice;
`noiseDetail(0, 0.5)` and `noiseDetail(3, -1)` are the two instances named. -/
theorem C5_noiseDetail (e : Noise K) (lod falloff : K) :
    (e.noiseDetail lod falloff)._perlin_octaves
        = (if lod > 0 then lod else e._perlin_octaves) ∧
      (e.noiseDetail lod falloff)._perlin_amp_falloff
        = (if falloff > 0 then falloff else e._perlin_amp_falloff) ∧
      (e.noiseDetail lod falloff)._perlin = e._perlin ∧
      ((e.noiseDetail 0 (1 / 2))._perlin_octaves = e._perlin_octaves ∧
        (e.noiseDetail 0 (1 / 2))._perlin_amp_falloff = 1 / 2) ∧
      ((e.noiseDetail 3 (-1))._perlin_octaves = 3 ∧
        (e.noiseDetail 3 (-1))._perlin_amp_falloff = e._perlin_amp_falloff) := by
  refine ⟨?_, ?_, ?_, ⟨?_, ?_⟩, ⟨?_, ?_⟩⟩
  · unfold Noise.noiseDetail
    split_ifs <;> rfl
  · unfold Noise.noiseDetail
    split_ifs <;> rfl
  · unfold Noise.noiseDetail
    split_ifs <;> rfl
  · simp [Noise.noiseDetail]
  · simp [Noise.noiseDetail]
  · norm_num [Noise.noiseDetail]
  · norm_num [Noise.noiseDetail]

/-- C9 (sampling is read-only once a lattice exists): on an engine that holds
a lattice, `noise(x, y, z)` leaves the whole engine (lattice, octave count,
falloff) as it was; the octave count and falloff are never written; and the
lattice field differs afterwards only if it was `null` before. -/
theorem C9_noise_readonly [FloorRing K] (env : MathEnv K) (e : Noise K) (x y z : K) :
    (∀ l : List K, e._perlin = some l → (e.noise env x y z).2 = e) ∧
      ((e.noise env x y z).2._perlin_octaves = e._perlin_octaves ∧
        (e.noise env x y z).2._perlin_amp_falloff = e._perlin_amp_falloff) ∧
      ((e.noise env x y z).2._perlin ≠ e._perlin → e._perlin = none) := by
  refine ⟨fun l hl => ?_, ⟨rfl, rfl⟩, fun h => ?_⟩
  · cases e
    simp only at hl
    simp [Noise.noise, hl, ensurePerlin]
  · cases hp : e._perlin with
    | none => rfl
    | some l =>
      exfalso
      apply h
      simp [Noise.noise, hp, ensurePerlin]

/-- Witness for C9: an engine holding a lattice of 4096 halves, sampled at
`(1, 2, 3)`. -/
theorem C9_noise_readonly_witness :
    ({ Noise.new with _perlin := some (List.replicate 4096 (1 / 2)) } : Noise ℝ)._perlin
        = some (List.replicate 4096 (1 / 2)) ∧
      (({ Noise.new with _perlin := some (List.replicate 4096 (1 / 2)) } : Noise ℝ).noise
          ⟨Real.cos, Real.pi, fun _ => 0⟩ 1 2 3).2
        = { Noise.new with _perlin := some (List.replicate 4096 (1 / 2)) } :=
  ⟨rfl, (C9_noise_readonly (⟨Real.cos, Real.pi, fun _ => 0⟩ : MathEnv ℝ)
    { Noise.new with _perlin := some (List.replicate 4096 (1 / 2)) } 1 2 3).1 _ rfl⟩

/-- C10 (fractional offsets stay in `[0, 1)`): the locals with which octave
iteration `k` of `noise(x, y, z)` starts have `xf`, `yf`, `zf` in `[0, 1)`;
these are the locals the loop really holds at counter `k` whenever iteration
`k` runs; and one doubling with its single carry step maps `[0, 1)` into
itself. -/
theorem C10_fraction_range [FloorRing K] (env : MathEnv K) (perlin : List K)
    (octaves falloff x y z : K) (k : ℕ) :
    ((octaveBody env perlin falloff)^[k]
        (octaveInit (stripSign x) (stripSign y) (stripSign z))).FracOk ∧
      ((k : K) < octaves →
        octaveLoop env perlin octaves falloff 0
            (octaveInit (stripSign x) (stripSign y) (stripSign z))
          = octaveLoop env perlin octaves falloff k
              ((octaveBody env perlin falloff)^[k]
                (octaveInit (stripSign x) (stripSign y) (stripSign z)))) ∧
      ∀ (i : ℤ) (f : K), 0 ≤ f → f < 1 →
        0 ≤ (advanceAxis i f).2 ∧ (advanceAxis i f).2 < 1 :=
  ⟨iterate_fracOk env perlin falloff _ (octaveInit_fracOk _ _ _) k,
    fun h => octaveLoop_reach env perlin octaves falloff k (Nat.lt_ceil.mpr h).le _,
    advanceAxis_snd_mem⟩

/-- Witness for C10: iteration 1 of a four-octave call at `(-3/4, 1/2, 5/4)`,
and the carry step on the offset `3/4`. -/
theorem C10_fraction_range_witness :
    ((octaveBody (⟨Real.cos, Real.pi, fun _ => 0⟩ : MathEnv ℝ) (List.replicate 4096 (1 / 2)) (1 / 2))^[1]
        (octaveInit (stripSign (-3 / 4)) (stripSign (1 / 2)) (stripSign (5 / 4)))).FracOk ∧
      (((1 : ℕ) : ℝ) < 4 ∧
        octaveLoop (⟨Real.cos, Real.pi, fun _ => 0⟩ : MathEnv ℝ) (List.replicate 4096 (1 / 2)) 4 (1 / 2) 0
            (octaveInit (stripSign (-3 / 4)) (stripSign (1 / 2)) (stripSign (5 / 4)))
          = octaveLoop (⟨Real.cos, Real.pi, fun _ => 0⟩ : MathEnv ℝ) (List.replicate 4096 (1 / 2)) 4 (1 / 2) 1
              ((octaveBody (⟨Real.cos, Real.pi, fun _ => 0⟩ : MathEnv ℝ) (List.replicate 4096 (1 / 2)) (1 / 2))^[1]
                (octaveInit (stripSign (-3 / 4)) (stripSign (1 / 2)) (stripSign (5 / 4))))) ∧
      ((0 : ℝ) ≤ 3 / 4 ∧ (3 / 4 : ℝ) < 1 ∧
        0 ≤ (advanceAxis 0 (3 / 4 : ℝ)).2 ∧ (advanceAxis 0 (3 / 4 : ℝ)).2 < 1) :=
  have h := C10_fraction_range (⟨Real.cos, Real.pi, fun _ => 0⟩ : MathEnv ℝ) (List.replicate 4096 (1 / 2)) 4 (1 / 2)
    (-3 / 4) (1 / 2) (5 / 4) 1
  ⟨h.1, ⟨by norm_num, h.2.1 (by norm_num)⟩, by norm_num, by norm_num,
    h.2.2 0 (3 / 4) (by norm_num) (by norm_num)⟩

/-- C6, as the code has it: on an engine with the default configuration
(4 octaves, falloff 0.5), after `noiseSeed(42)` the value `noise(0, 0, 0)` is
`0.9375 = 0.5 + 0.25 + 0.125 + 0.0625` times the first slot of the lattice,
which is `1083814273 / 4294967296`. -/
theorem C6_noise_origin_default [FloorRing K] (env : MathEnv K) (hcos : env.cos 0 = 1)
    (e : Noise K) (ho : e._perlin_octaves = 4) (hf : e._perlin_amp_falloff = 1 / 2) :
    (∃ l : List K, (e.noiseSeed env (some 42))._perlin = some l ∧
        l[0]? = some (1083814273 / 4294967296)) ∧
      ((e.noiseSeed env (some 42)).noise env 0 0 0).1
        = (1 / 2 + 1 / 4 + 1 / 8 + 1 / 16) * (1083814273 / 4294967296) := by
  obtain ⟨h1, h2⟩ := noise_origin_seed42 env hcos e
  refine ⟨h1, ?_⟩
  rw [h2, ho, hf, Nat.ceil_ofNat]
  norm_num [Finset.sum_range_succ]

/-- Witness for C6: a fresh engine with the real cosine. -/
theorem C6_noise_origin_default_witness :
    Real.cos 0 = 1 ∧ (Noise.new : Noise ℝ)._perlin_octaves = 4 ∧
      (Noise.new : Noise ℝ)._perlin_amp_falloff = 1 / 2 ∧
      (((Noise.new : Noise ℝ).noiseSeed ⟨Real.cos, Real.pi, fun _ => 0⟩ (some 42)).noise
          ⟨Real.cos, Real.pi, fun _ => 0⟩ 0 0 0).1
        = (1 / 2 + 1 / 4 + 1 / 8 + 1 / 16) * (1083814273 / 4294967296) :=
  ⟨Real.cos_zero, rfl, rfl,
    (C6_noise_origin_default (⟨Real.cos, Real.pi, fun _ => 0⟩ : MathEnv ℝ) Real.cos_zero
      Noise.new rfl rfl).2⟩

/-- Counterexample to C6 as stated: on a fresh engine, after `noiseSeed(42)`,
the lattice has a first slot `v` and `noise(0, 0, 0)` is not `v`. -/
theorem C6_noise_origin_counterexample :
    ∃ (l : List ℝ) (v : ℝ),
      ((Noise.new : Noise ℝ).noiseSeed ⟨Real.cos, Real.pi, fun _ => 0⟩ (some 42))._perlin
          = some l ∧
        l[0]? = some v ∧
        (((Noise.new : Noise ℝ).noiseSeed ⟨Real.cos, Real.pi, fun _ => 0⟩ (some 42)).noise
          ⟨Real.cos, Real.pi, fun _ => 0⟩ 0 0 0).1 ≠ v := by
  obtain ⟨⟨l, h1, h0⟩, h2⟩ :=
    noise_origin_seed42 (⟨Real.cos, Real.pi, fun _ => 0⟩ : MathEnv ℝ) Real.cos_zero Noise.new
  refine ⟨l, _, h1, h0, ?_⟩
  rw [h2]
  have hc : ⌈(Noise.new : Noise ℝ)._perlin_octaves⌉₊ = 4 := Nat.ceil_ofNat 4
  have hf : (Noise.new : Noise ℝ)._perlin_amp_falloff = 1 / 2 := rfl
  rw [hc, hf]
  norm_num [Finset.sum_range_succ]

/-- C7 (default-configuration range): with 4 octaves and falloff 0.5, on any
lattice whose entries all lie in `[0, 1)` and with a cosine that takes values
in `[-1, 1]`, `noise(x, y, z)` lies in `[0, 1.05]` for all coordinates (it is
in fact at most `15/16`). -/
theorem C7_default_range [FloorRing K] (env : MathEnv K)
    (hcos : ∀ t : K, -1 ≤ env.cos t ∧ env.cos t ≤ 1) (e : Noise K) (l : List K)
    (hl : e._perlin = some l) (hmem : ∀ v : K, v ∈ l → 0 ≤ v ∧ v < 1)
    (ho : e._perlin_octaves = 4) (hf : e._perlin_amp_falloff = 1 / 2) (x y z : K) :
    0 ≤ (e.noise env x y z).1 ∧ (e.noise env x y z).1 ≤ 105 / 100 ∧
      (e.noise env x y z).1 ≤ 15 / 16 := by
  obtain ⟨h1, h2⟩ := noise_default_bound env hcos e l hl hmem ho hf x y z
  exact ⟨h1, h2.trans (by norm_num), h2⟩

/-- Witness for C7: the real cosine, a lattice of 4096 halves, the point
`(1, 2, 3)`. -/
theorem C7_default_range_witness :
    (∀ t : ℝ, -1 ≤ Real.cos t ∧ Real.cos t ≤ 1) ∧
      (∀ v : ℝ, v ∈ List.replicate 4096 (1 / 2 : ℝ) → 0 ≤ v ∧ v < 1) ∧
      0 ≤ (({ Noise.new with _perlin := some (List.replicate 4096 (1 / 2)) } : Noise ℝ).noise
          ⟨Real.cos, Real.pi, fun _ => 0⟩ 1 2 3).1 ∧
      (({ Noise.new with _perlin := some (List.replicate 4096 (1 / 2)) } : Noise ℝ).noise
          ⟨Real.cos, Real.pi, fun _ => 0⟩ 1 2 3).1 ≤ 105 / 100 := by
  have hc : ∀ t : ℝ, -1 ≤ Real.cos t ∧ Real.cos t ≤ 1 :=
    fun t => ⟨Real.neg_one_le_cos t, Real.cos_le_one t⟩
  have hm : ∀ v : ℝ, v ∈ List.replicate 4096 (1 / 2 : ℝ) → 0 ≤ v ∧ v < 1 := by
    intro v hv
    rw [List.eq_of_mem_replicate hv]
    norm_num
  have h := C7_default_range (⟨Real.cos, Real.pi, fun _ => 0⟩ : MathEnv ℝ) hc
    { Noise.new with _perlin := some (List.replicate 4096 (1 / 2)) } _ rfl hm rfl rfl 1 2 3
  exact ⟨hc, hm, h.1, h.2.1⟩

/-- C8, the code at the failing input: after `noiseSeed(42)` and
`noiseDetail(8, 1)`, every lattice entry is in `[0, 1)`, yet `noise(0, 0, 0)`
returns `1083814273 / 1073741824`, which is above `1`. -/
theorem C8_noise_exceeds_one :
    (∃ l : List ℝ,
        (((Noise.new : Noise ℝ).noiseSeed ⟨Real.cos, Real.pi, fun _ => 0⟩
            (some 42)).noiseDetail 8 1)._perlin = some l ∧
          ∀ v : ℝ, v ∈ l → 0 ≤ v ∧ v < 1) ∧
      ((((Noise.new : Noise ℝ).noiseSeed ⟨Real.cos, Real.pi, fun _ => 0⟩
          (some 42)).noiseDetail 8 1).noise ⟨Real.cos, Real.pi, fun _ => 0⟩ 0 0 0).1
        = 1083814273 / 1073741824 ∧
      (1 : ℝ) < 1083814273 / 1073741824 := by
  refine ⟨⟨seedFill (PERLIN_SIZE + 1)
      (lcg.setSeed (⟨Real.cos, Real.pi, fun _ => 0⟩ : MathEnv ℝ) (some 42)), ?_,
    fun v hv => seedFill_mem _ _ v hv⟩, ?_, by norm_num⟩
  · rw [noiseDetail_of_pos _ _ _ (by norm_num) (by norm_num)]
    rfl
  · rw [noise_origin_seed42_detail (⟨Real.cos, Real.pi, fun _ => 0⟩ : MathEnv ℝ) Real.cos_zero
      Noise.new 8 1 (by norm_num) (by norm_num), Nat.ceil_ofNat]
    norm_num [Finset.sum_range_succ]

end Claims

end NoiseJs

/-! # Second part: indices, closed forms, termination, vectors, grid -/

namespace NoiseJs

/-! ## The 32-bit operators modulo powers of two -/

theorem toUint32_size : toUint32 (PERLIN_SIZE : ℤ) = 4095 := by
  decide

/-- Masking with `PERLIN_SIZE` is reduction modulo 4096. -/
theorem band_size (i : ℤ) : band i (PERLIN_SIZE : ℤ) = i % 4096 := by
  have h1 : Nat.land (toUint32 i) 4095 = toUint32 i % 4096 :=
    Nat.and_pow_two_sub_one_eq_mod (toUint32 i) 12
  rw [band, toUint32_size, h1]
  unfold toInt32 toUint32
  omega

theorem toInt32_of_range (n : ℤ) (h0 : -2147483648 ≤ n) (h1 : n < 2147483648) :
    toInt32 n = n := by
  unfold toInt32
  omega

theorem toInt32_emod (n : ℤ) : toInt32 n % 4294967296 = n % 4294967296 := by
  unfold toInt32
  omega

theorem toInt32_emod_size (n : ℤ) : toInt32 n % 4096 = n % 4096 := by
  unfold toInt32
  omega

theorem band_size_range (i : ℤ) :
    0 ≤ band i (PERLIN_SIZE : ℤ) ∧ band i (PERLIN_SIZE : ℤ) ≤ 4095 := by
  rw [band_size]
  omega

theorem band_size_toNat_lt (i : ℤ) : (band i (PERLIN_SIZE : ℤ)).toNat < 4096 := by
  have := band_size_range i
  omega

theorem ensurePerlin_none_length {K : Type} (env : MathEnv K) :
    (ensurePerlin env none).length = 4096 := by
  simp [ensurePerlin, PERLIN_SIZE]

section IndexLemmas

variable {K : Type} [LinearOrderedField K]

/-- On a lattice of 4096 entries the read `this._perlin[i & PERLIN_SIZE]` is
the entry stored in a slot of the array. -/
theorem perlinAt_getElem? (perlin : List K) (hlen : perlin.length = 4096) (i : ℤ) :
    perlin[(band i (PERLIN_SIZE : ℤ)).toNat]? = some (perlinAt perlin i) := by
  have hlt : (band i (PERLIN_SIZE : ℤ)).toNat < perlin.length := by
    rw [hlen]
    exact band_size_toNat_lt i
  rw [perlinAt, List.getD_eq_getElem?_getD, List.getElem?_eq_getElem hlt]
  rfl

/-! ## Doubling a coordinate: floor and fractional part -/

/-- Floor and fractional part of `t * 2` from those of `t`. -/
theorem floor_fract_double [FloorRing K] (t : K) :
    (1 ≤ Int.fract t * 2 → ⌊t * 2⌋ = 2 * ⌊t⌋ + 1 ∧ Int.fract (t * 2) = Int.fract t * 2 - 1) ∧
      (¬ 1 ≤ Int.fract t * 2 → ⌊t * 2⌋ = 2 * ⌊t⌋ ∧ Int.fract (t * 2) = Int.fract t * 2) := by
  have h0 := Int.fract_nonneg t
  have h1 := Int.fract_lt_one t
  have ht : t = (⌊t⌋ : K) + Int.fract t := (Int.floor_add_fract t).symm
  constructor
  · intro h
    have hf : ⌊t * 2⌋ = 2 * ⌊t⌋ + 1 := by
      rw [Int.floor_eq_iff]
      push_cast
      constructor <;> nlinarith
    refine ⟨hf, ?_⟩
    rw [Int.fract, hf]
    push_cast
    nlinarith
  · intro h
    have hf : ⌊t * 2⌋ = 2 * ⌊t⌋ := by
      rw [Int.floor_eq_iff]
      push_cast
      constructor <;> nlinarith [not_le.mp h]
    refine ⟨hf, ?_⟩
    rw [Int.fract, hf]
    push_cast
    nlinarith

/-- The statements `xi <<= 1; xf *= 2; if (xf >= 1.0) { xi++; xf--; }` started
on the fractional part of `t`: the new offset is the fractional part of
`t * 2` and the index grows by the carry `⌊t * 2⌋ - 2 * ⌊t⌋`. -/
theorem advanceAxis_fract [FloorRing K] (i : ℤ) (t : K) :
    (advanceAxis i (Int.fract t)).2 = Int.fract (t * 2) ∧
      (advanceAxis i (Int.fract t)).1 = shl i 1 + (⌊t * 2⌋ - 2 * ⌊t⌋) := by
  obtain ⟨hc, hn⟩ := floor_fract_double t
  unfold advanceAxis
  simp only [ge_iff_le]
  split_ifs with h
  · obtain ⟨h1, h2⟩ := hc h
    exact ⟨h2.symm, by rw [h1]; ring⟩
  · obtain ⟨h1, h2⟩ := hn h
    exact ⟨h2.symm, by rw [h1]; ring⟩

/-! ## The loop locals in closed form -/

theorem octaveBody_xi (env : MathEnv K) (perlin : List K) (falloff : K) (s : Octave K) :
    (octaveBody env perlin falloff s).xi = (advanceAxis s.xi s.xf).1 := rfl

theorem octaveBody_xf (env : MathEnv K) (perlin : List K) (falloff : K) (s : Octave K) :
    (octaveBody env perlin falloff s).xf = (advanceAxis s.xi s.xf).2 := rfl

theorem octaveBody_yi (env : MathEnv K) (perlin : List K) (falloff : K) (s : Octave K) :
    (octaveBody env perlin falloff s).yi = (advanceAxis s.yi s.yf).1 := rfl

theorem octaveBody_yf (env : MathEnv K) (perlin : List K) (falloff : K) (s : Octave K) :
    (octaveBody env perlin falloff s).yf = (advanceAxis s.yi s.yf).2 := rfl

theorem octaveBody_zi (env : MathEnv K) (perlin : List K) (falloff : K) (s : Octave K) :
    (octaveBody env perlin falloff s).zi = (advanceAxis s.zi s.zf).1 := rfl

theorem octaveBody_zf (env : MathEnv K) (perlin : List K) (falloff : K) (s : Octave K) :
    (octaveBody env perlin falloff s).zf = (advanceAxis s.zi s.zf).2 := rfl

theorem octaveBody_ampl (env : MathEnv K) (perlin : List K) (falloff : K) (s : Octave K) :
    (octaveBody env perlin falloff s).ampl = s.ampl * falloff := rfl

theorem octaveBody_r (env : MathEnv K) (perlin : List K) (falloff : K) (s : Octave K) :
    (octaveBody env perlin falloff s).r = s.r + octaveValue env perlin s * s.ampl := rfl

/-- One axis after one more run of the body, modulo `2 ^ 32`. -/
theorem advanceAxis_emod [FloorRing K] (i : ℤ) (t : K)
    (hi : i % 4294967296 = ⌊t⌋ % 4294967296) :
    (advanceAxis i (Int.fract t)).2 = Int.fract (t * 2) ∧
      (advanceAxis i (Int.fract t)).1 % 4294967296 = ⌊t * 2⌋ % 4294967296 := by
  obtain ⟨h1, h2⟩ := advanceAxis_fract i t
  refine ⟨h1, ?_⟩
  have h3 := toInt32_emod (i * 2 ^ 1)
  rw [h2, shl]
  omega

/-- One axis after one more run of the body, when the doubled coordinate
stays below `2 ^ 31`. -/
theorem advanceAxis_exact [FloorRing K] (t : K) (h0 : 0 ≤ t) (h1 : t * 2 < 2147483648) :
    (advanceAxis ⌊t⌋ (Int.fract t)).2 = Int.fract (t * 2) ∧
      (advanceAxis ⌊t⌋ (Int.fract t)).1 = ⌊t * 2⌋ := by
  obtain ⟨h2, h3⟩ := advanceAxis_fract ⌊t⌋ t
  refine ⟨h2, ?_⟩
  have hn : 0 ≤ ⌊t⌋ := Int.floor_nonneg.mpr h0
  have hle : ((⌊t⌋ : ℤ) : K) * 2 < 2147483648 := by
    have := Int.floor_le t
    linarith
  have hlt : ⌊t⌋ * 2 < 2147483648 := by
    exact_mod_cast hle
  have hs : shl ⌊t⌋ 1 = ⌊t⌋ * 2 := by
    rw [shl, pow_one]
    exact toInt32_of_range _ (by omega) hlt
  rw [h3, hs]
  ring

/-- The locals after `k` runs of the body: the fractional offsets are the
fractional parts of the coordinates scaled by `2 ^ k`, the indices agree with
the floors modulo `2 ^ 32`, and the amplitude is `0.5 * falloff ^ k`. -/
theorem iterate_axes [FloorRing K] (env : MathEnv K) (perlin : List K) (falloff a b c : K)
    (k : ℕ) :
    (((octaveBody env perlin falloff)^[k] (octaveInit a b c)).xf = Int.fract (a * 2 ^ k) ∧
        ((octaveBody env perlin falloff)^[k] (octaveInit a b c)).xi % 4294967296
          = ⌊a * 2 ^ k⌋ % 4294967296) ∧
      (((octaveBody env perlin falloff)^[k] (octaveInit a b c)).yf = Int.fract (b * 2 ^ k) ∧
        ((octaveBody env perlin falloff)^[k] (octaveInit a b c)).yi % 4294967296
          = ⌊b * 2 ^ k⌋ % 4294967296) ∧
      (((octaveBody env perlin falloff)^[k] (octaveInit a b c)).zf = Int.fract (c * 2 ^ k) ∧
        ((octaveBody env perlin falloff)^[k] (octaveInit a b c)).zi % 4294967296
          = ⌊c * 2 ^ k⌋ % 4294967296) ∧
      ((octaveBody env perlin falloff)^[k] (octaveInit a b c)).ampl = 1 / 2 * falloff ^ k := by
  induction k with
  | zero =>
    simp only [Function.iterate_zero, id, pow_zero, mul_one]
    exact ⟨⟨rfl, rfl⟩, ⟨rfl, rfl⟩, ⟨rfl, rfl⟩, rfl⟩
  | succ k ih =>
    obtain ⟨⟨hx1, hx2⟩, ⟨hy1, hy2⟩, ⟨hz1, hz2⟩, ha⟩ := ih
    rw [Function.iterate_succ_apply']
    rw [octaveBody_xf, octaveBody_xi, octaveBody_yf, octaveBody_yi, octaveBody_zf, octaveBody_zi,
      octaveBody_ampl, hx1, hy1, hz1, ha, pow_succ, pow_succ, ← mul_assoc a, ← mul_assoc b,
      ← mul_assoc c]
    exact ⟨advanceAxis_emod _ _ hx2, advanceAxis_emod _ _ hy2, advanceAxis_emod _ _ hz2,
      by ring⟩

/-- The running total after `k` runs of the body. -/
theorem iterate_r_sum (env : MathEnv K) (perlin : List K) (falloff : K) (s : Octave K)
    (k : ℕ) :
    ((octaveBody env perlin falloff)^[k] s).r
      = s.r + ∑ j in Finset.range k,
          octaveValue env perlin ((octaveBody env perlin falloff)^[j] s)
            * ((octaveBody env perlin falloff)^[j] s).ampl := by
  induction k with
  | zero => simp
  | succ k ih =>
    rw [Function.iterate_succ_apply', octaveBody_r, ih, Finset.sum_range_succ]
    ring

/-! ## The octave value as an interpolation over the wrapped lattice -/

theorem perlinAt_eq_latticeAt (perlin : List K) (i j : ℤ) (h : i % 4096 = j % 4096) :
    perlinAt perlin i = NoiseSpec.latticeAt perlin j := by
  rw [perlinAt, band_size, NoiseSpec.latticeAt, h]

theorem latticeAt_congr (perlin : List K) (i j : ℤ) (h : i % 4096 = j % 4096) :
    NoiseSpec.latticeAt perlin i = NoiseSpec.latticeAt perlin j := by
  rw [NoiseSpec.latticeAt, NoiseSpec.latticeAt, h]

/-- The value computed by one run of the body is the interpolation over the
cell with flat index `xi + 16 * yi + 256 * zi`, with the smoothed offsets as
weights. -/
theorem octaveValue_eq_cellValue (env : MathEnv K) (perlin : List K) (s : Octave K) :
    octaveValue env perlin s
      = NoiseSpec.cellValue perlin (s.xi + 16 * s.yi + 256 * s.zi)
          (scaled_cosine env s.xf) (scaled_cosine env s.yf) (scaled_cosine env s.zf) := by
  have hy := toInt32_emod_size (s.yi * 2 ^ 4)
  have hz := toInt32_emod_size (s.zi * 2 ^ 8)
  have e0 : ∀ d : ℤ, (s.xi + shl s.yi 4 + shl s.zi 8 + d) % 4096
      = (s.xi + 16 * s.yi + 256 * s.zi + d) % 4096 := by
    intro d
    rw [shl, shl]
    omega
  have hw4 : PERLIN_YWRAP = 16 := by decide
  have hw8 : PERLIN_ZWRAP = 256 := by decide
  have hb4 : PERLIN_YWRAPB = 4 := rfl
  have hb8 : PERLIN_ZWRAPB = 8 := rfl
  unfold octaveValue NoiseSpec.cellValue NoiseSpec.mix
  simp only [hw4, hw8, hb4, hb8]
  rw [perlinAt_eq_latticeAt perlin _ (s.xi + 16 * s.yi + 256 * s.zi) (by have := e0 0; omega),
    perlinAt_eq_latticeAt perlin _ (s.xi + 16 * s.yi + 256 * s.zi + 1) (by have := e0 1; omega),
    perlinAt_eq_latticeAt perlin _ (s.xi + 16 * s.yi + 256 * s.zi + 16)
      (by have := e0 16; omega),
    perlinAt_eq_latticeAt perlin _ (s.xi + 16 * s.yi + 256 * s.zi + 16 + 1)
      (by have := e0 17; omega),
    perlinAt_eq_latticeAt perlin _ (s.xi + 16 * s.yi + 256 * s.zi + 256)
      (by have := e0 256; omega),
    perlinAt_eq_latticeAt perlin _ (s.xi + 16 * s.yi + 256 * s.zi + 256 + 1)
      (by have := e0 257; omega),
    perlinAt_eq_latticeAt perlin _ (s.xi + 16 * s.yi + 256 * s.zi + 256 + 16)
      (by have := e0 272; omega),
    perlinAt_eq_latticeAt perlin _ (s.xi + 16 * s.yi + 256 * s.zi + 256 + 16 + 1)
      (by have := e0 273; omega)]

theorem cellValue_congr (perlin : List K) (i j : ℤ) (h : i % 4096 = j % 4096)
    (wx wy wz : K) :
    NoiseSpec.cellValue perlin i wx wy wz = NoiseSpec.cellValue perlin j wx wy wz := by
  unfold NoiseSpec.cellValue
  rw [latticeAt_congr perlin i j h,
    latticeAt_congr perlin (i + 1) (j + 1) (by omega),
    latticeAt_congr perlin (i + 16) (j + 16) (by omega),
    latticeAt_congr perlin (i + 16 + 1) (j + 16 + 1) (by omega),
    latticeAt_congr perlin (i + 256) (j + 256) (by omega),
    latticeAt_congr perlin (i + 256 + 1) (j + 256 + 1) (by omega),
    latticeAt_congr perlin (i + 256 + 16) (j + 256 + 16) (by omega),
    latticeAt_congr perlin (i + 256 + 16 + 1) (j + 256 + 16 + 1) (by omega)]

/-- The value computed by run `k` of the body is the octave value of the
specification at the scaled coordinates. -/
theorem octaveValue_iterate [FloorRing K] (env : MathEnv K) (perlin : List K)
    (falloff a b c : K) (k : ℕ) :
    octaveValue env perlin ((octaveBody env perlin falloff)^[k] (octaveInit a b c))
      = NoiseSpec.octaveValueAt env perlin a b c k := by
  obtain ⟨⟨hx1, hx2⟩, ⟨hy1, hy2⟩, ⟨hz1, hz2⟩, -⟩ := iterate_axes env perlin falloff a b c k
  rw [octaveValue_eq_cellValue, hx1, hy1, hz1, NoiseSpec.octaveValueAt]
  exact cellValue_congr perlin _ _ (by omega) _ _ _

/-- The value of `noise(x, y, z)`: the sum over the octaves `k` that the loop
runs of the octave value at the sign-stripped coordinates, weighted by
`0.5 * falloff ^ k`. -/
theorem noise_eq_sum [FloorRing K] (env : MathEnv K) (e : Noise K) (x y z : K) :
    (e.noise env x y z).1
      = ∑ k in Finset.range ⌈e._perlin_octaves⌉₊,
          NoiseSpec.octaveValueAt env (ensurePerlin env e._perlin)
              (stripSign x) (stripSign y) (stripSign z) k
            * (1 / 2 * e._perlin_amp_falloff ^ k) := by
  simp only [Noise.noise, octaveLoop_eq_iterate, Nat.sub_zero]
  rw [iterate_r_sum]
  have h0 : (octaveInit (stripSign x) (stripSign y) (stripSign z)).r = 0 := rfl
  rw [h0, zero_add]
  refine Finset.sum_congr rfl fun k _ => ?_
  rw [octaveValue_iterate, (iterate_axes env _ _ _ _ _ k).2.2.2]

theorem stripSign_eq_abs (x : K) : stripSign x = |x| := by
  unfold stripSign
  split_ifs with h
  · exact (abs_of_neg h).symm
  · exact (abs_of_nonneg (not_lt.mp h)).symm

/-- While the scaled coordinate stays below `2 ^ 31` the X index is its floor,
not only congruent to it. -/
theorem iterate_xi_exact [FloorRing K] (env : MathEnv K) (perlin : List K) (falloff a b c : K)
    (ha : 0 ≤ a) (k : ℕ) (hk : a * 2 ^ k < 2147483648) :
    ((octaveBody env perlin falloff)^[k] (octaveInit a b c)).xi = ⌊a * 2 ^ k⌋ := by
  induction k with
  | zero =>
    simp only [Function.iterate_zero, id, pow_zero, mul_one]
    rfl
  | succ k ih =>
    have hpos : (0 : K) ≤ a * 2 ^ k := mul_nonneg ha (pow_nonneg (by norm_num) k)
    have hk2 : a * 2 ^ k * 2 < 2147483648 := by
      rw [mul_assoc, ← pow_succ]
      exact hk
    have hprev := ih (by linarith)
    have hxf := (iterate_axes env perlin falloff a b c k).1.1
    rw [Function.iterate_succ_apply', octaveBody_xi, hprev, hxf, pow_succ, ← mul_assoc]
    exact (advanceAxis_exact _ hpos hk2).2

theorem iterate_yi_exact [FloorRing K] (env : MathEnv K) (perlin : List K) (falloff a b c : K)
    (hb : 0 ≤ b) (k : ℕ) (hk : b * 2 ^ k < 2147483648) :
    ((octaveBody env perlin falloff)^[k] (octaveInit a b c)).yi = ⌊b * 2 ^ k⌋ := by
  induction k with
  | zero =>
    simp only [Function.iterate_zero, id, pow_zero, mul_one]
    rfl
  | succ k ih =>
    have hpos : (0 : K) ≤ b * 2 ^ k := mul_nonneg hb (pow_nonneg (by norm_num) k)
    have hk2 : b * 2 ^ k * 2 < 2147483648 := by
      rw [mul_assoc, ← pow_succ]
      exact hk
    have hprev := ih (by linarith)
    have hyf := (iterate_axes env perlin falloff a b c k).2.1.1
    rw [Function.iterate_succ_apply', octaveBody_yi, hprev, hyf, pow_succ, ← mul_assoc]
    exact (advanceAxis_exact _ hpos hk2).2

theorem iterate_zi_exact [FloorRing K] (env : MathEnv K) (perlin : List K) (falloff a b c : K)
    (hc : 0 ≤ c) (k : ℕ) (hk : c * 2 ^ k < 2147483648) :
    ((octaveBody env perlin falloff)^[k] (octaveInit a b c)).zi = ⌊c * 2 ^ k⌋ := by
  induction k with
  | zero =>
    simp only [Function.iterate_zero, id, pow_zero, mul_one]
    rfl
  | succ k ih =>
    have hpos : (0 : K) ≤ c * 2 ^ k := mul_nonneg hc (pow_nonneg (by norm_num) k)
    have hk2 : c * 2 ^ k * 2 < 2147483648 := by
      rw [mul_assoc, ← pow_succ]
      exact hk
    have hprev := ih (by linarith)
    have hzf := (iterate_axes env perlin falloff a b c k).2.2.1.1
    rw [Function.iterate_succ_apply', octaveBody_zi, hprev, hzf, pow_succ, ← mul_assoc]
    exact (advanceAxis_exact _ hpos hk2).2

/-- The octave value at a point of natural-number coordinates: every weight
is zero and the value is the lattice entry at the wrapped flat index. -/
theorem octaveValueAt_natCast [FloorRing K] (env : MathEnv K) (hcos : env.cos 0 = 1)
    (perlin : List K) (x y z k : ℕ) :
    NoiseSpec.octaveValueAt env perlin (x : K) (y : K) (z : K) k
      = NoiseSpec.latticeAt perlin (2 ^ k * ((x : ℤ) + 16 * y + 256 * z)) := by
  have hx : (x : K) * 2 ^ k = ((x * 2 ^ k : ℕ) : K) := by push_cast; ring
  have hy : (y : K) * 2 ^ k = ((y * 2 ^ k : ℕ) : K) := by push_cast; ring
  have hz : (z : K) * 2 ^ k = ((z * 2 ^ k : ℕ) : K) := by push_cast; ring
  rw [NoiseSpec.octaveValueAt, hx, hy, hz]
  simp only [Int.floor_natCast, Int.fract_natCast, scaled_cosine_zero env hcos,
    NoiseSpec.cellValue, NoiseSpec.mix, zero_mul, add_zero]
  congr 1
  push_cast
  ring

end IndexLemmas

/-- Each of the 8 indices read by one run of the body is below 4096. -/
theorem octaveReads_lt {K : Type} (s : Octave K) (i : ℕ) (hi : i ∈ octaveReads s) :
    i < 4096 := by
  simp only [octaveReads, List.mem_cons, List.mem_singleton, List.not_mem_nil, or_false] at hi
  rcases hi with h | h | h | h | h | h | h | h <;> rw [h] <;> exact band_size_toNat_lt _

/-- On a lattice of 4096 entries each of the 8 reads finds a stored entry. -/
theorem octaveReads_populated {K : Type} (l : List K) (hlen : l.length = 4096) (s : Octave K)
    (i : ℕ) (hi : i ∈ octaveReads s) : ∃ v : K, l[i]? = some v := by
  have hlt : i < l.length := by
    rw [hlen]
    exact octaveReads_lt s i hi
  exact ⟨l[i], List.getElem?_eq_getElem hlt⟩

section ReadLemmas

variable {K : Type} [LinearOrderedField K]

theorem perlinAt_congr (l l1 : List K) (j : ℤ)
    (h : l[(band j (PERLIN_SIZE : ℤ)).toNat]? = l1[(band j (PERLIN_SIZE : ℤ)).toNat]?) :
    perlinAt l j = perlinAt l1 j := by
  rw [perlinAt, perlinAt, List.getD_eq_getElem?_getD, List.getD_eq_getElem?_getD, h]

/-- The value computed by one run of the body depends on the lattice only
through the 8 slots listed by `octaveReads`. -/
theorem octaveValue_congr_reads (env : MathEnv K) (l l1 : List K) (s : Octave K)
    (h : ∀ i : ℕ, i ∈ octaveReads s → l[i]? = l1[i]?) :
    octaveValue env l s = octaveValue env l1 s := by
  have m0 : (band (s.xi + shl s.yi PERLIN_YWRAPB + shl s.zi PERLIN_ZWRAPB)
      (PERLIN_SIZE : ℤ)).toNat ∈ octaveReads s := by
    simp only [octaveReads, List.mem_cons, true_or]
  have m1 : (band (s.xi + shl s.yi PERLIN_YWRAPB + shl s.zi PERLIN_ZWRAPB + 1)
      (PERLIN_SIZE : ℤ)).toNat ∈ octaveReads s := by
    simp only [octaveReads, List.mem_cons, true_or, or_true]
  have m2 : (band (s.xi + shl s.yi PERLIN_YWRAPB + shl s.zi PERLIN_ZWRAPB + PERLIN_YWRAP)
      (PERLIN_SIZE : ℤ)).toNat ∈ octaveReads s := by
    simp only [octaveReads, List.mem_cons, true_or, or_true]
  have m3 : (band (s.xi + shl s.yi PERLIN_YWRAPB + shl s.zi PERLIN_ZWRAPB + PERLIN_YWRAP + 1)
      (PERLIN_SIZE : ℤ)).toNat ∈ octaveReads s := by
    simp only [octaveReads, List.mem_cons, true_or, or_true]
  have m4 : (band (s.xi + shl s.yi PERLIN_YWRAPB + shl s.zi PERLIN_ZWRAPB + PERLIN_ZWRAP)
      (PERLIN_SIZE : ℤ)).toNat ∈ octaveReads s := by
    simp only [octaveReads, List.mem_cons, true_or, or_true]
  have m5 : (band (s.xi + shl s.yi PERLIN_YWRAPB + shl s.zi PERLIN_ZWRAPB + PERLIN_ZWRAP + 1)
      (PERLIN_SIZE : ℤ)).toNat ∈ octaveReads s := by
    simp only [octaveReads, List.mem_cons, true_or, or_true]
  have m6 : (band (s.xi + shl s.yi PERLIN_YWRAPB + shl s.zi PERLIN_ZWRAPB + PERLIN_ZWRAP
      + PERLIN_YWRAP) (PERLIN_SIZE : ℤ)).toNat ∈ octaveReads s := by
    simp only [octaveReads, List.mem_cons, true_or, or_true]
  have m7 : (band (s.xi + shl s.yi PERLIN_YWRAPB + shl s.zi PERLIN_ZWRAPB + PERLIN_ZWRAP
      + PERLIN_YWRAP + 1) (PERLIN_SIZE : ℤ)).toNat ∈ octaveReads s := by
    simp only [octaveReads, List.mem_cons, List.mem_singleton, true_or, or_true]
  unfold octaveValue
  simp only
  rw [perlinAt_congr l l1 _ (h _ m0), perlinAt_congr l l1 _ (h _ m1),
    perlinAt_congr l l1 _ (h _ m2), perlinAt_congr l l1 _ (h _ m3),
    perlinAt_congr l l1 _ (h _ m4), perlinAt_congr l l1 _ (h _ m5),
    perlinAt_congr l l1 _ (h _ m6), perlinAt_congr l l1 _ (h _ m7)]

/-- Entries past slot 4095 are never read by a run of the body. -/
theorem octaveBody_append (env : MathEnv K) (l extra : List K) (hlen : l.length = 4096)
    (falloff : K) : octaveBody env (l ++ extra) falloff = octaveBody env l falloff := by
  funext s
  have hv : octaveValue env (l ++ extra) s = octaveValue env l s :=
    octaveValue_congr_reads env _ _ s fun i hi =>
      List.getElem?_append_left (by rw [hlen]; exact octaveReads_lt s i hi)
  unfold octaveBody
  rw [hv]

/-- Entries past slot 4095 do not affect the value of `noise`. -/
theorem noise_append [FloorRing K] (env : MathEnv K) (e : Noise K) (l extra : List K)
    (hlen : l.length = 4096) (x y z : K) :
    (({ e with _perlin := some (l ++ extra) } : Noise K).noise env x y z).1
      = (({ e with _perlin := some l } : Noise K).noise env x y z).1 := by
  simp only [Noise.noise, ensurePerlin, octaveLoop_eq_iterate, octaveBody_append env l extra hlen]

end ReadLemmas

section Claims2

variable {K : Type} [LinearOrderedField K]

/-- C11 (lattice lookups are in bounds): each of the 8 indices that a run of
the loop body of `noise` reads the lattice at is a natural number below 4096,
whatever the loop locals are; the value the body computes depends on the
lattice through these 8 slots only; on a lattice of 4096 entries every one of
them holds a stored entry, and entries appended past slot 4095 never change
the value of `noise`.  Both ways a lattice comes to exist (the lazy fill in
`noise`, and `noiseSeed`) produce 4096 entries, and every masked index
`i & PERLIN_SIZE` is in `0..4095`. -/
theorem C11_lookup_in_bounds [FloorRing K] (env : MathEnv K) :
    (∀ (s : Octave K) (i : ℕ), i ∈ octaveReads s → i < 4096) ∧
      (∀ (l l1 : List K) (s : Octave K), (∀ i : ℕ, i ∈ octaveReads s → l[i]? = l1[i]?) →
        octaveValue env l s = octaveValue env l1 s) ∧
      (∀ l : List K, l.length = 4096 → ∀ (s : Octave K) (i : ℕ), i ∈ octaveReads s →
        ∃ v : K, l[i]? = some v) ∧
      (∀ (e : Noise K) (l extra : List K), l.length = 4096 → ∀ x y z : K,
        (({ e with _perlin := some (l ++ extra) } : Noise K).noise env x y z).1
          = (({ e with _perlin := some l } : Noise K).noise env x y z).1) ∧
      (∀ i : ℤ, 0 ≤ band i (PERLIN_SIZE : ℤ) ∧ band i (PERLIN_SIZE : ℤ) ≤ 4095) ∧
      (ensurePerlin env none).length = 4096 ∧
      (∀ (e : Noise K) (seed : Option K), ∃ l : List K,
        (e.noiseSeed env seed)._perlin = some l ∧ l.length = 4096) ∧
      ∀ perlin : List K, perlin.length = 4096 → ∀ i : ℤ,
        perlin[(band i (PERLIN_SIZE : ℤ)).toNat]? = some (perlinAt perlin i) :=
  ⟨octaveReads_lt, octaveValue_congr_reads env, octaveReads_populated,
    fun e l extra hlen x y z => noise_append env e l extra hlen x y z,
    band_size_range, ensurePerlin_none_length env,
    fun _ _ => ⟨_, rfl, seedFill_length _ _⟩, perlinAt_getElem?⟩

/-- Witness for C11: a lattice of 4096 halves; slot 0 is read by the body on
the locals of the origin and is populated; appending the entry `7` does not
change `noise(1, 2, 3)`; the raw offset 5000 is read inside the lattice. -/
theorem C11_lookup_in_bounds_witness :
    (0 ∈ octaveReads (octaveInit (0 : ℝ) 0 0) ∧ 0 < 4096) ∧
      ((List.replicate 4096 (1 / 2 : ℝ)).length = 4096 ∧
        ∃ v : ℝ, (List.replicate 4096 (1 / 2 : ℝ))[0]? = some v) ∧
      (({ Noise.new with _perlin := some (List.replicate 4096 (1 / 2) ++ [7]) } : Noise ℝ).noise
          ⟨Real.cos, Real.pi, fun _ => 0⟩ 1 2 3).1
        = (({ Noise.new with _perlin := some (List.replicate 4096 (1 / 2)) } : Noise ℝ).noise
          ⟨Real.cos, Real.pi, fun _ => 0⟩ 1 2 3).1 ∧
      (List.replicate 4096 (1 / 2 : ℝ))[(band 5000 (PERLIN_SIZE : ℤ)).toNat]?
        = some (perlinAt (List.replicate 4096 (1 / 2 : ℝ)) 5000) := by
  have h := C11_lookup_in_bounds (⟨Real.cos, Real.pi, fun _ => 0⟩ : MathEnv ℝ)
  have hlen : (List.replicate 4096 (1 / 2 : ℝ)).length = 4096 := List.length_replicate _ _
  have hmem : 0 ∈ octaveReads (octaveInit (0 : ℝ) 0 0) := by
    have e0 : octaveInit (0 : ℝ) 0 0
        = { xi := 0, yi := 0, zi := 0, xf := 0, yf := 0, zf := 0, r := 0, ampl := 1 / 2 } := by
      simp [octaveInit]
    rw [e0]
    simp only [octaveReads, shl_zero, add_zero, band_zero_size, Int.toNat_zero]
    exact List.mem_cons_self _ _
  exact ⟨⟨hmem, h.1 _ 0 hmem⟩, ⟨hlen, h.2.2.1 _ hlen _ 0 hmem⟩,
    h.2.2.2.1 Noise.new _ [7] hlen 1 2 3, h.2.2.2.2.2.2.2 _ hlen 5000⟩

/-- C18 (value at lattice points): with a cosine for which `cos 0 = 1`, an
octave count that is the natural number `n`, and natural-number coordinates,
`noise(x, y, z)` is the sum over `o < n` of
`0.5 * f ^ o * lattice[(2 ^ o * (x + 16 * y + 256 * z)) mod 4096]`. -/
theorem C18_noise_lattice_point [FloorRing K] (env : MathEnv K) (hcos : env.cos 0 = 1)
    (e : Noise K) (l : List K) (hl : e._perlin = some l) (n : ℕ)
    (ho : e._perlin_octaves = (n : K)) (x y z : ℕ) :
    (e.noise env (x : K) (y : K) (z : K)).1
      = ∑ o in Finset.range n,
          1 / 2 * e._perlin_amp_falloff ^ o
            * NoiseSpec.latticeAt l (2 ^ o * ((x : ℤ) + 16 * y + 256 * z)) := by
  have hs : ∀ m : ℕ, stripSign (m : K) = (m : K) := fun m => by
    rw [stripSign_eq_abs, abs_of_nonneg (Nat.cast_nonneg m)]
  rw [noise_eq_sum, ho, Nat.ceil_natCast, hl, hs, hs, hs]
  refine Finset.sum_congr rfl fun o _ => ?_
  rw [octaveValueAt_natCast env hcos, ensurePerlin]
  ring

/-- Witness for C18: the real cosine, a lattice of 4096 halves, 4 octaves,
the point `(1, 2, 3)`. -/
theorem C18_noise_lattice_point_witness :
    Real.cos 0 = 1 ∧
      (({ Noise.new with _perlin := some (List.replicate 4096 (1 / 2)) } : Noise ℝ).noise
          ⟨Real.cos, Real.pi, fun _ => 0⟩ ((1 : ℕ) : ℝ) ((2 : ℕ) : ℝ) ((3 : ℕ) : ℝ)).1
        = ∑ o in Finset.range 4,
            1 / 2 * (1 / 2 : ℝ) ^ o
              * NoiseSpec.latticeAt (List.replicate 4096 (1 / 2 : ℝ))
                  (2 ^ o * (((1 : ℕ) : ℤ) + 16 * ((2 : ℕ) : ℤ) + 256 * ((3 : ℕ) : ℤ))) :=
  ⟨Real.cos_zero,
    C18_noise_lattice_point (⟨Real.cos, Real.pi, fun _ => 0⟩ : MathEnv ℝ) Real.cos_zero
      { Noise.new with _perlin := some (List.replicate 4096 (1 / 2)) } _ rfl 4
      (by norm_num [Noise.new]) 1 2 3⟩

/-- C19 (the incremental update computes floor and fractional part): at the
start of octave `k` of `noise(x, y, z)`, on every axis whose scaled coordinate
`2 ^ k * |x|` is below `2 ^ 31`, the index is the floor of the scaled
coordinate and the offset is the scaled coordinate minus that floor. -/
theorem C19_floor_fract [FloorRing K] (env : MathEnv K) (perlin : List K)
    (falloff x y z : K) (k : ℕ) :
    (2 ^ k * |x| < 2 ^ 31 →
        ((octaveBody env perlin falloff)^[k]
            (octaveInit (stripSign x) (stripSign y) (stripSign z))).xi = ⌊2 ^ k * |x|⌋ ∧
          ((octaveBody env perlin falloff)^[k]
            (octaveInit (stripSign x) (stripSign y) (stripSign z))).xf
            = 2 ^ k * |x| - (⌊2 ^ k * |x|⌋ : K)) ∧
      (2 ^ k * |y| < 2 ^ 31 →
        ((octaveBody env perlin falloff)^[k]
            (octaveInit (stripSign x) (stripSign y) (stripSign z))).yi = ⌊2 ^ k * |y|⌋ ∧
          ((octaveBody env perlin falloff)^[k]
            (octaveInit (stripSign x) (stripSign y) (stripSign z))).yf
            = 2 ^ k * |y| - (⌊2 ^ k * |y|⌋ : K)) ∧
      (2 ^ k * |z| < 2 ^ 31 →
        ((octaveBody env perlin falloff)^[k]
            (octaveInit (stripSign x) (stripSign y) (stripSign z))).zi = ⌊2 ^ k * |z|⌋ ∧
          ((octaveBody env perlin falloff)^[k]
            (octaveInit (stripSign x) (stripSign y) (stripSign z))).zf
            = 2 ^ k * |z| - (⌊2 ^ k * |z|⌋ : K)) := by
  obtain ⟨⟨hx, -⟩, ⟨hy, -⟩, ⟨hz, -⟩, -⟩ :=
    iterate_axes env perlin falloff (stripSign x) (stripSign y) (stripSign z) k
  simp only [stripSign_eq_abs] at hx hy hz ⊢
  refine ⟨fun h => ?_, fun h => ?_, fun h => ?_⟩
  · rw [hx, mul_comm (2 ^ k) |x|]
    exact ⟨iterate_xi_exact env perlin falloff _ _ _ (abs_nonneg x) k
      (by rw [mul_comm]; norm_num at h ⊢; exact h), rfl⟩
  · rw [hy, mul_comm (2 ^ k) |y|]
    exact ⟨iterate_yi_exact env perlin falloff _ _ _ (abs_nonneg y) k
      (by rw [mul_comm]; norm_num at h ⊢; exact h), rfl⟩
  · rw [hz, mul_comm (2 ^ k) |z|]
    exact ⟨iterate_zi_exact env perlin falloff _ _ _ (abs_nonneg z) k
      (by rw [mul_comm]; norm_num at h ⊢; exact h), rfl⟩

/-- Witness for C19: octave 1 of the call at `(-3/4, 1/2, 5/4)`. -/
theorem C19_floor_fract_witness :
    (2 ^ 1 * |(-3 / 4 : ℝ)| < 2 ^ 31 ∧
        ((octaveBody (⟨Real.cos, Real.pi, fun _ => 0⟩ : MathEnv ℝ)
              (List.replicate 4096 (1 / 2)) (1 / 2))^[1]
            (octaveInit (stripSign (-3 / 4)) (stripSign (1 / 2)) (stripSign (5 / 4)))).xi
          = ⌊2 ^ 1 * |(-3 / 4 : ℝ)|⌋) ∧
      (2 ^ 1 * |(1 / 2 : ℝ)| < 2 ^ 31 ∧
        ((octaveBody (⟨Real.cos, Real.pi, fun _ => 0⟩ : MathEnv ℝ)
              (List.replicate 4096 (1 / 2)) (1 / 2))^[1]
            (octaveInit (stripSign (-3 / 4)) (stripSign (1 / 2)) (stripSign (5 / 4)))).yi
          = ⌊2 ^ 1 * |(1 / 2 : ℝ)|⌋) ∧
      (2 ^ 1 * |(5 / 4 : ℝ)| < 2 ^ 31 ∧
        ((octaveBody (⟨Real.cos, Real.pi, fun _ => 0⟩ : MathEnv ℝ)
              (List.replicate 4096 (1 / 2)) (1 / 2))^[1]
            (octaveInit (stripSign (-3 / 4)) (stripSign (1 / 2)) (stripSign (5 / 4)))).zi
          = ⌊2 ^ 1 * |(5 / 4 : ℝ)|⌋) := by
  have h := C19_floor_fract (⟨Real.cos, Real.pi, fun _ => 0⟩ : MathEnv ℝ)
    (List.replicate 4096 (1 / 2)) (1 / 2) (-3 / 4) (1 / 2) (5 / 4) 1
  have hx : 2 ^ 1 * |(-3 / 4 : ℝ)| < 2 ^ 31 := by
    rw [abs_of_neg (by norm_num)]
    norm_num
  have hy : 2 ^ 1 * |(1 / 2 : ℝ)| < 2 ^ 31 := by
    rw [abs_of_pos (by norm_num)]
    norm_num
  have hz : 2 ^ 1 * |(5 / 4 : ℝ)| < 2 ^ 31 := by
    rw [abs_of_pos (by norm_num)]
    norm_num
  exact ⟨⟨hx, (h.1 hx).1⟩, ⟨hy, (h.2.1 hy).1⟩, ⟨hz, (h.2.2 hz).1⟩⟩

end Claims2

/-! ## Termination of the octave loop -/

section Termination

variable {K : Type} [LinearOrderedField K]

theorem counterInc_of_lt (o : ℕ) (h : o < 2 ^ 53) : counterInc o = o + 1 := by
  unfold counterInc
  rw [if_pos h]

theorem counterInc_le (o : ℕ) (h : o ≤ 2 ^ 53) : counterInc o ≤ 2 ^ 53 := by
  unfold counterInc
  split_ifs with h1
  · omega
  · exact h

theorem cast_two_pow_53 : (((2 : ℕ) ^ 53 : ℕ) : K) = 2 ^ 53 := by
  simp only [Nat.cast_pow, Nat.cast_ofNat]

/-- While the guard holds for an octave count of at most `2 ^ 53`, the
counter is below `2 ^ 53`. -/
theorem counter_lt_of_guard (octaves : K) (hb : octaves ≤ 2 ^ 53) (o : ℕ)
    (hlt : (o : K) < octaves) : o < 2 ^ 53 := by
  have h : (o : K) < ((2 ^ 53 : ℕ) : K) := by
    rw [cast_two_pow_53]
    exact lt_of_lt_of_le hlt hb
  exact Nat.cast_lt.mp h

/-- With the octave count `Infinity` the guard never fails: no amount of fuel
lets the loop exit. -/
theorem octaveLoopFuel_posInf (env : MathEnv K) (perlin : List K) (falloff : K) (fuel o : ℕ)
    (s : Octave K) : octaveLoopFuel env perlin JsNum.posInf falloff fuel o s = none := by
  induction fuel generalizing o s with
  | zero => rfl
  | succ fuel ih =>
    rw [octaveLoopFuel]
    exact ih _ _

/-- With a finite octave count above `2 ^ 53` the counter reaches `2 ^ 53`
and stays there with the guard still true: no amount of fuel lets the loop
exit. -/
theorem octaveLoopFuel_stuck (env : MathEnv K) (perlin : List K) (octaves falloff : K)
    (hb : 2 ^ 53 < octaves) (fuel o : ℕ) (ho : o ≤ 2 ^ 53) (s : Octave K) :
    octaveLoopFuel env perlin (JsNum.fin octaves) falloff fuel o s = none := by
  induction fuel generalizing o s with
  | zero =>
    have hlt : (o : K) < octaves := by
      have h : (o : K) ≤ ((2 ^ 53 : ℕ) : K) := Nat.cast_le.mpr ho
      rw [cast_two_pow_53] at h
      exact lt_of_le_of_lt h hb
    simp [octaveLoopFuel, JsNum.counterLt, hlt]
  | succ fuel ih =>
    have hlt : (o : K) < octaves := by
      have h : (o : K) ≤ ((2 ^ 53 : ℕ) : K) := Nat.cast_le.mpr ho
      rw [cast_two_pow_53] at h
      exact lt_of_le_of_lt h hb
    rw [octaveLoopFuel]
    simp only [JsNum.counterLt, hlt, decide_True, if_true]
    exact ih _ (counterInc_le o ho) _

/-- With a finite octave count of at most `2 ^ 53` the loop exits once the
fuel covers the remaining runs, with the locals the total loop computes. -/
theorem octaveLoopFuel_fin [FloorRing K] (env : MathEnv K) (perlin : List K)
    (octaves falloff : K) (hb : octaves ≤ 2 ^ 53) (fuel o : ℕ) (s : Octave K)
    (h : ⌈octaves⌉₊ - o ≤ fuel) :
    octaveLoopFuel env perlin (JsNum.fin octaves) falloff fuel o s
      = some (octaveLoop env perlin octaves falloff o s) := by
  induction fuel generalizing o s with
  | zero =>
    have hn : ¬ (o : K) < octaves := fun hlt => by
      have := Nat.lt_ceil.mpr hlt
      omega
    rw [octaveLoopFuel, octaveLoop, dif_neg hn]
    simp [JsNum.counterLt, hn]
  | succ fuel ih =>
    rw [octaveLoopFuel, octaveLoop]
    by_cases hlt : (o : K) < octaves
    · rw [dif_pos hlt]
      simp only [JsNum.counterLt, hlt, decide_True, if_true]
      rw [counterInc_of_lt o (counter_lt_of_guard octaves hb o hlt)]
      exact ih _ _ (by omega)
    · rw [dif_neg hlt]
      simp [JsNum.counterLt, hlt]

/-- With a finite octave count of at most `2 ^ 53` and less fuel than
remaining runs the loop has not exited. -/
theorem octaveLoopFuel_short [FloorRing K] (env : MathEnv K) (perlin : List K)
    (octaves falloff : K) (hb : octaves ≤ 2 ^ 53) (fuel o : ℕ) (s : Octave K)
    (h : fuel < ⌈octaves⌉₊ - o) :
    octaveLoopFuel env perlin (JsNum.fin octaves) falloff fuel o s = none := by
  induction fuel generalizing o s with
  | zero =>
    have hlt : (o : K) < octaves := Nat.lt_ceil.mp (by omega)
    simp [octaveLoopFuel, JsNum.counterLt, hlt]
  | succ fuel ih =>
    have hlt : (o : K) < octaves := Nat.lt_ceil.mp (by omega)
    rw [octaveLoopFuel]
    simp only [JsNum.counterLt, hlt, decide_True, if_true]
    rw [counterInc_of_lt o (counter_lt_of_guard octaves hb o hlt)]
    exact ih _ _ (by omega)

theorem noiseFuel_fin [FloorRing K] (env : MathEnv K) (e : Noise K) (x y z : K)
    (hb : e._perlin_octaves ≤ 2 ^ 53) (fuel : ℕ) (h : ⌈e._perlin_octaves⌉₊ ≤ fuel) :
    noiseFuel fuel env (ensurePerlin env e._perlin) (JsNum.fin e._perlin_octaves)
        e._perlin_amp_falloff x y z
      = some (e.noise env x y z).1 := by
  rw [noiseFuel, octaveLoopFuel_fin env _ _ _ hb _ _ _ (by omega)]
  rfl

theorem noiseFuel_short [FloorRing K] (env : MathEnv K) (perlin : List K)
    (octaves falloff x y z : K) (hb : octaves ≤ 2 ^ 53) (fuel : ℕ) (h : fuel < ⌈octaves⌉₊) :
    noiseFuel fuel env perlin (JsNum.fin octaves) falloff x y z = none := by
  rw [noiseFuel, octaveLoopFuel_short env _ _ _ hb _ _ _ (by omega)]
  rfl

theorem noiseFuel_posInf [FloorRing K] (env : MathEnv K) (perlin : List K)
    (falloff x y z : K) (fuel : ℕ) :
    noiseFuel fuel env perlin JsNum.posInf falloff x y z = none := by
  rw [noiseFuel, octaveLoopFuel_posInf]
  rfl

theorem noiseFuel_stuck [FloorRing K] (env : MathEnv K) (perlin : List K)
    (octaves falloff x y z : K) (hb : 2 ^ 53 < octaves) (fuel : ℕ) :
    noiseFuel fuel env perlin (JsNum.fin octaves) falloff x y z = none := by
  rw [noiseFuel, octaveLoopFuel_stuck env _ _ _ hb _ _ (Nat.zero_le _)]
  rfl

theorem noiseDetailOctaves_fin (e : Noise K) (lod falloff : K) :
    noiseDetailOctaves (JsNum.fin e._perlin_octaves) (JsNum.fin lod)
      = JsNum.fin (e.noiseDetail lod falloff)._perlin_octaves := by
  unfold noiseDetailOctaves Noise.noiseDetail JsNum.gtZero
  by_cases h : lod > 0
  · simp only [h, decide_True, if_true]
    split_ifs <;> rfl
  · simp only [h, decide_False, if_false, Bool.false_eq_true]
    split_ifs <;> rfl

theorem noiseDetailOctaves_fin_of_pos (octaves : JsNum K) (lod : K) (h : 0 < lod) :
    noiseDetailOctaves octaves (JsNum.fin lod) = JsNum.fin lod := by
  simp [noiseDetailOctaves, JsNum.gtZero, h]

/-- C13, as the code has it: for every engine whose octave count is a finite
number of at most `2 ^ 53 = 9007199254740992` (whatever `noiseDetail` and
`noiseSeed` calls produced it), `noise(x, y, z)` exits its octave loop after
exactly `⌈octaves⌉` runs of the body, one per natural `o < octaves`, and
returns its value; `noiseSeed` writes exactly 4096 slots.  The octave field
set by `noiseDetail` with finite arguments is the one the loop is run on. -/
theorem C13_noise_terminates [FloorRing K] (env : MathEnv K) (e : Noise K) (x y z : K)
    (hb : e._perlin_octaves ≤ 2 ^ 53) :
    (∀ fuel : ℕ, ⌈e._perlin_octaves⌉₊ ≤ fuel →
        noiseFuel fuel env (ensurePerlin env e._perlin) (JsNum.fin e._perlin_octaves)
            e._perlin_amp_falloff x y z
          = some (e.noise env x y z).1) ∧
      (∀ fuel : ℕ, fuel < ⌈e._perlin_octaves⌉₊ →
        noiseFuel fuel env (ensurePerlin env e._perlin) (JsNum.fin e._perlin_octaves)
            e._perlin_amp_falloff x y z = none) ∧
      (∀ o : ℕ, (o : K) < e._perlin_octaves ↔ o < ⌈e._perlin_octaves⌉₊) ∧
      (∀ lod falloff : K,
        noiseDetailOctaves (JsNum.fin e._perlin_octaves) (JsNum.fin lod)
          = JsNum.fin (e.noiseDetail lod falloff)._perlin_octaves) ∧
      ∀ seed : Option K, ∃ l : List K,
        (e.noiseSeed env seed)._perlin = some l ∧ l.length = 4096 :=
  ⟨fun fuel h => noiseFuel_fin env e x y z hb fuel h,
    fun fuel h => noiseFuel_short env _ _ _ x y z hb fuel h,
    fun _ => Nat.lt_ceil.symm,
    fun lod falloff => noiseDetailOctaves_fin e lod falloff,
    fun _ => ⟨_, rfl, seedFill_length _ _⟩⟩

/-- Witness for C13: a fresh engine (4 octaves) sampled at `(1, 2, 3)` with
fuel 4 and with fuel 3. -/
theorem C13_noise_terminates_witness :
    (Noise.new : Noise ℝ)._perlin_octaves ≤ 2 ^ 53 ∧
      (⌈(Noise.new : Noise ℝ)._perlin_octaves⌉₊ ≤ 4 ∧
        noiseFuel 4 (⟨Real.cos, Real.pi, fun _ => 0⟩ : MathEnv ℝ)
            (ensurePerlin ⟨Real.cos, Real.pi, fun _ => 0⟩ (Noise.new : Noise ℝ)._perlin)
            (JsNum.fin (Noise.new : Noise ℝ)._perlin_octaves)
            (Noise.new : Noise ℝ)._perlin_amp_falloff 1 2 3
          = some ((Noise.new : Noise ℝ).noise ⟨Real.cos, Real.pi, fun _ => 0⟩ 1 2 3).1) ∧
      (3 < ⌈(Noise.new : Noise ℝ)._perlin_octaves⌉₊ ∧
        noiseFuel 3 (⟨Real.cos, Real.pi, fun _ => 0⟩ : MathEnv ℝ)
            (ensurePerlin ⟨Real.cos, Real.pi, fun _ => 0⟩ (Noise.new : Noise ℝ)._perlin)
            (JsNum.fin (Noise.new : Noise ℝ)._perlin_octaves)
            (Noise.new : Noise ℝ)._perlin_amp_falloff 1 2 3 = none) := by
  have hc : ⌈(Noise.new : Noise ℝ)._perlin_octaves⌉₊ = 4 := Nat.ceil_ofNat 4
  have hb : (Noise.new : Noise ℝ)._perlin_octaves ≤ 2 ^ 53 := by
    show (4 : ℝ) ≤ 2 ^ 53
    norm_num
  have h := C13_noise_terminates (⟨Real.cos, Real.pi, fun _ => 0⟩ : MathEnv ℝ) Noise.new 1 2 3 hb
  exact ⟨hb, ⟨hc.le, h.1 4 hc.le⟩, ⟨by rw [hc]; decide, h.2.1 3 (by rw [hc]; decide)⟩⟩

/-- Counterexample to C13 as stated, at two numeric arguments.
`noiseDetail(Infinity, 0.5)` on a fresh engine stores `Infinity` as the octave
count, and `noiseDetail(1e16, 0.5)` stores the finite `1e16`; after either,
`noise(0, 0, 0)` does not exit its loop within any number of runs of the
body. -/
theorem C13_noise_diverges :
    (noiseDetailOctaves (JsNum.fin (4 : ℝ)) JsNum.posInf = JsNum.posInf ∧
        ¬ ∃ fuel : ℕ,
          (noiseFuel fuel (⟨Real.cos, Real.pi, fun _ => 0⟩ : MathEnv ℝ)
            (List.replicate 4096 (1 / 2))
            (noiseDetailOctaves (JsNum.fin (4 : ℝ)) JsNum.posInf) (1 / 2) 0 0 0).isSome
              = true) ∧
      (noiseDetailOctaves (JsNum.fin (4 : ℝ)) (JsNum.fin 10000000000000000)
          = JsNum.fin 10000000000000000 ∧
        ¬ ∃ fuel : ℕ,
          (noiseFuel fuel (⟨Real.cos, Real.pi, fun _ => 0⟩ : MathEnv ℝ)
            (List.replicate 4096 (1 / 2))
            (noiseDetailOctaves (JsNum.fin (4 : ℝ)) (JsNum.fin 10000000000000000))
            (1 / 2) 0 0 0).isSome = true) := by
  have h1 : noiseDetailOctaves (JsNum.fin (4 : ℝ)) JsNum.posInf = JsNum.posInf := rfl
  have h2 : noiseDetailOctaves (JsNum.fin (4 : ℝ)) (JsNum.fin 10000000000000000)
      = JsNum.fin 10000000000000000 :=
    noiseDetailOctaves_fin_of_pos _ _ (by norm_num)
  refine ⟨⟨h1, ?_⟩, ⟨h2, ?_⟩⟩
  · rintro ⟨fuel, hf⟩
    rw [h1, noiseFuel_posInf] at hf
    exact Bool.false_ne_true hf
  · rintro ⟨fuel, hf⟩
    rw [h2, noiseFuel_stuck _ _ _ _ _ _ _ (by norm_num)] at hf
    exact Bool.false_ne_true hf

end Termination

end NoiseJs

/-! ## The generator in binary64 arithmetic -/

namespace NoiseJs

theorem lcg.step_lt (z : ℤ) (h0 : 0 ≤ z) (h1 : z < 2 ^ 32) :
    0 ≤ (lcg.a : ℤ) * z ∧ (lcg.a : ℤ) * z + (lcg.c : ℤ) < 2 ^ 53 := by
  simp only [lcg.a, lcg.c, Nat.cast_ofNat]
  norm_num at h1 ⊢
  omega

theorem lcg.randDouble_eq (rnd : ℤ → ℤ) (hrnd : ∀ n : ℤ, |n| ≤ 2 ^ 53 → rnd n = n) (z : ℤ)
    (h0 : 0 ≤ z) (h1 : z < 2 ^ 32) :
    lcg.randDouble rnd z = ((lcg.a : ℤ) * z + (lcg.c : ℤ)) % 2 ^ 32 := by
  obtain ⟨hp, hlt⟩ := lcg.step_lt z h0 h1
  have hc : (0 : ℤ) ≤ (lcg.c : ℤ) := Int.natCast_nonneg _
  have e1 : rnd ((lcg.a : ℤ) * z) = (lcg.a : ℤ) * z :=
    hrnd _ (by rw [abs_of_nonneg hp]; omega)
  have e2 : rnd ((lcg.a : ℤ) * z + (lcg.c : ℤ)) = (lcg.a : ℤ) * z + (lcg.c : ℤ) :=
    hrnd _ (by rw [abs_of_nonneg (by omega)]; omega)
  have hm : ((lcg.m : ℕ) : ℤ) = 2 ^ 32 := by
    simp only [lcg.m, Nat.cast_ofNat]
    norm_num
  rw [lcg.randDouble, e1, e2, Int.tmod_eq_emod (by omega) (Int.natCast_nonneg _), hm]

theorem lcg.rand_snd_z_lt {K : Type} [LinearOrderedField K] (g : lcg.State) :
    (lcg.rand g : K × lcg.State).2.z < 2 ^ 32 := by
  have h : (lcg.rand g : K × lcg.State).2.z = (lcg.a * g.z + lcg.c) % 4294967296 := rfl
  rw [h]
  omega

theorem toUint32_lt (n : ℤ) : toUint32 n < 2 ^ 32 := by
  unfold toUint32
  omega

theorem lcg.setSeed_z_lt {K : Type} [LinearOrderedField K] [FloorRing K] (env : MathEnv K)
    (val : Option K) : (lcg.setSeed env val).z < 2 ^ 32 :=
  toUint32_lt _

/-- C20 (the generator's arithmetic is exact in binary64): for a state
`0 ≤ z < 2 ^ 32` the intermediate value `1664525 * z + 1013904223` is below
`2 ^ 53`; hence, for any rounding that leaves the integers of magnitude at
most `2 ^ 53` unchanged, the rounded computation of `(a * z + c) % m` is the
exact recurrence, which is also what `rand()` of the model stores; and the
state is below `2 ^ 32` after `setSeed` and after every `rand()`. -/
theorem C20_rand_exact (rnd : ℤ → ℤ) (hrnd : ∀ n : ℤ, |n| ≤ 2 ^ 53 → rnd n = n) :
    (∀ z : ℤ, 0 ≤ z → z < 2 ^ 32 →
        1664525 * z + 1013904223 < 2 ^ 53 ∧
          lcg.randDouble rnd z = (1664525 * z + 1013904223) % 2 ^ 32 ∧
          0 ≤ lcg.randDouble rnd z ∧ lcg.randDouble rnd z < 2 ^ 32) ∧
      (∀ g : lcg.State, g.z < 2 ^ 32 →
        (((lcg.rand g : ℚ × lcg.State).2.z : ℕ) : ℤ) = lcg.randDouble rnd (g.z : ℤ) ∧
          (lcg.rand g : ℚ × lcg.State).2.z < 2 ^ 32) ∧
      ∀ (env : MathEnv ℚ) (val : Option ℚ), (lcg.setSeed env val).z < 2 ^ 32 := by
  refine ⟨fun z h0 h1 => ?_, fun g hg => ?_, fun env val => lcg.setSeed_z_lt env val⟩
  · have h := lcg.randDouble_eq rnd hrnd z h0 h1
    have hs := lcg.step_lt z h0 h1
    simp only [lcg.a, lcg.c, Nat.cast_ofNat] at h hs
    rw [h]
    refine ⟨hs.2, rfl, ?_, ?_⟩ <;> omega
  · have h := lcg.randDouble_eq rnd hrnd (g.z : ℤ) (Int.natCast_nonneg _)
      (by exact_mod_cast hg)
    refine ⟨?_, lcg.rand_snd_z_lt g⟩
    rw [h]
    show (((lcg.a * g.z + lcg.c) % lcg.m : ℕ) : ℤ) = _
    simp only [lcg.m]
    push_cast
    norm_num

/-- Witness for C20: a rounding that keeps integers up to `2 ^ 53` and rounds
larger ones to an even integer, at the state `z = 42`. -/
theorem C20_rand_exact_witness :
    (∀ n : ℤ, |n| ≤ 2 ^ 53 → (fun k : ℤ => if |k| ≤ 2 ^ 53 then k else 2 * (k / 2)) n = n) ∧
      ((0 : ℤ) ≤ 42 ∧ (42 : ℤ) < 2 ^ 32 ∧
        lcg.randDouble (fun k : ℤ => if |k| ≤ 2 ^ 53 then k else 2 * (k / 2)) 42
          = (1664525 * 42 + 1013904223) % 2 ^ 32) := by
  have hr : ∀ n : ℤ, |n| ≤ 2 ^ 53 →
      (fun k : ℤ => if |k| ≤ 2 ^ 53 then k else 2 * (k / 2)) n = n :=
    fun n hn => if_pos hn
  exact ⟨hr, by norm_num, by norm_num,
    ((C20_rand_exact _ hr).1 42 (by norm_num) (by norm_num)).2.1⟩

end NoiseJs

/-! ## The vector helpers -/

namespace VectorJs

section VectorLemmas

variable {K : Type} [LinearOrderedField K]

/-- The value of `vecnorm(v, true)` on a vector of positive magnitude: the
call evaluates to `undefined`, the caller's vector is untouched, and the
normalized copy is bound only to the local variable. -/
theorem vecnorm_copy_of_pos (mth : VecMath K) (v : Vector K) (h : 0 < vecmag mth v) :
    vecnorm mth v true
      = { returned := none, arg := v,
          bound := { x := v.x / vecmag mth v, y := v.y / vecmag mth v } } := by
  have h' : vecmag mth (veccopy v) > 0 := h
  have hne : vecmag mth (veccopy v) ≠ 0 := ne_of_gt h'
  simp only [vecnorm, if_true, h', vecdiv, orElse, hne, if_false]
  rfl

end VectorLemmas

/-- C14, the code at the failing input: rotating the unit vector `(1, 0)` by
`π / 2` leaves `(0, 0)`, of magnitude `0`, while the magnitude before the call
is `1`. -/
theorem C14_vecrot_changes_magnitude :
    vecrot (⟨Real.cos, Real.sin, Real.sqrt⟩ : VecMath ℝ) { x := 1, y := 0 } (Real.pi / 2)
        = { x := 0, y := 0 } ∧
      vecmag (⟨Real.cos, Real.sin, Real.sqrt⟩ : VecMath ℝ) { x := 1, y := 0 } = 1 ∧
      vecmag (⟨Real.cos, Real.sin, Real.sqrt⟩ : VecMath ℝ)
          (vecrot (⟨Real.cos, Real.sin, Real.sqrt⟩ : VecMath ℝ) { x := 1, y := 0 }
            (Real.pi / 2)) = 0 := by
  have h : vecrot (⟨Real.cos, Real.sin, Real.sqrt⟩ : VecMath ℝ) { x := 1, y := 0 }
      (Real.pi / 2) = { x := 0, y := 0 } := by
    simp [vecrot, Real.cos_pi_div_two, Real.sin_pi_div_two]
  refine ⟨h, ?_, ?_⟩
  · simp [vecmag]
  · rw [h]
    simp [vecmag]

/-- C15, the code at the failing input: `vecnorm(vec(3, 4), true)` evaluates
to `undefined`; the argument stays `(3, 4)` and the normalized copy
`(3/5, 4/5)` is bound only to the local variable. -/
theorem C15_vecnorm_copy_returns_undefined :
    vecnorm (⟨Real.cos, Real.sin, Real.sqrt⟩ : VecMath ℝ) (vec 3 4) true
      = { returned := none, arg := { x := 3, y := 4 },
          bound := { x := 3 / 5, y := 4 / 5 } } := by
  have hm : vecmag (⟨Real.cos, Real.sin, Real.sqrt⟩ : VecMath ℝ) (vec 3 4) = 5 := by
    simp only [vecmag, vec]
    rw [show (3 * 3 + 4 * 4 : ℝ) = 5 ^ 2 by norm_num, Real.sqrt_sq (by norm_num)]
  rw [vecnorm_copy_of_pos _ _ (by rw [hm]; norm_num), hm]
  rfl

/-- C16, the code at the failing input: `vecset(v, 5, 0)` on `v = (1, 2)`
leaves `(5, 5)`: the `0` passed for `y` is replaced by `x`. -/
theorem C16_vecset_zero_y :
    vecset ({ x := 1, y := 2 } : Vector ℝ) 5 (some 0) = { x := 5, y := 5 } := by
  simp [vecset, orElse]

end VectorJs

/-! ## The grid container -/

namespace GridJs

variable {α : Type}

theorem clip_range (n w : ℤ) (hw : 1 ≤ w) :
    0 ≤ Grid.__clip n 0 (w - 1) ∧ Grid.__clip n 0 (w - 1) ≤ w - 1 := by
  unfold Grid.__clip
  omega

theorem clip_id (n w : ℤ) (h0 : 0 ≤ n) (h1 : n < w) : Grid.__clip n 0 (w - 1) = n := by
  unfold Grid.__clip
  omega

theorem Grid.new_cells_length (width height : ℤ) :
    (Grid.new width height : Grid α).__cells.length = (|width| * |height|).toNat := by
  simp [Grid.new, Grid.clear]

/-- C17 (grid access is bounds-clipped): on a grid of width `w ≥ 1` and
height `h ≥ 1` the index computed by `__getIndex`, which is the one `get` and
`set` use, is `clip(x, 0, w - 1) + clip(y, 0, h - 1) * w`; it lies in
`0..w * h - 1`, and it is `x + y * w` for coordinates inside the grid. -/
theorem C17_grid_index (g : Grid α) (x y : ℤ) (hw : 1 ≤ g._width) (hh : 1 ≤ g._height) :
    g.__getIndex x y
        = Grid.__clip x 0 (g._width - 1) + Grid.__clip y 0 (g._height - 1) * g._width ∧
      (0 ≤ g.__getIndex x y ∧ g.__getIndex x y ≤ g._width * g._height - 1) ∧
      (0 ≤ x → x < g._width → 0 ≤ y → y < g._height → g.__getIndex x y = x + y * g._width) ∧
      (∀ value : α,
        (g.set x y value).__cells = g.__cells.set (g.__getIndex x y).toNat (some value)) ∧
      ∀ truthy : α → Bool, g.get truthy x y
        = (g.__cells.getD (g.__getIndex x y).toNat none).bind
            fun v => if truthy v then some v else none := by
  have hx := clip_range x g._width hw
  have hy := clip_range y g._height hh
  refine ⟨rfl, ⟨?_, ?_⟩, ?_, fun _ => rfl, fun truthy => ?_⟩
  · show 0 ≤ Grid.__clip x 0 (g._width - 1) + Grid.__clip y 0 (g._height - 1) * g._width
    nlinarith [mul_nonneg hy.1 (by omega : (0 : ℤ) ≤ g._width)]
  · show Grid.__clip x 0 (g._width - 1) + Grid.__clip y 0 (g._height - 1) * g._width
      ≤ g._width * g._height - 1
    nlinarith [mul_le_mul_of_nonneg_right hy.2 (by omega : (0 : ℤ) ≤ g._width)]
  · intro h0 h1 h2 h3
    show Grid.__clip x 0 (g._width - 1) + Grid.__clip y 0 (g._height - 1) * g._width = _
    rw [clip_id x _ h0 h1, clip_id y _ h2 h3]
  · unfold Grid.get
    cases g.__cells.getD (g.__getIndex x y).toNat none <;> rfl

/-- Witness for C17: the 3 × 2 grid from the constructor, at `(5, -1)`
(clipped) and at `(2, 1)` (inside). -/
theorem C17_grid_index_witness :
    (1 ≤ (Grid.new 3 2 : Grid ℕ)._width ∧ 1 ≤ (Grid.new 3 2 : Grid ℕ)._height) ∧
      (Grid.new 3 2 : Grid ℕ).__getIndex 5 (-1) = 2 ∧
      ((0 : ℤ) ≤ 2 ∧ (2 : ℤ) < (Grid.new 3 2 : Grid ℕ)._width ∧ (0 : ℤ) ≤ 1 ∧
        (1 : ℤ) < (Grid.new 3 2 : Grid ℕ)._height ∧
        (Grid.new 3 2 : Grid ℕ).__getIndex 2 1 = 2 + 1 * (Grid.new 3 2 : Grid ℕ)._width) := by
  have hw : (1 : ℤ) ≤ (Grid.new 3 2 : Grid ℕ)._width := by decide
  have hh : (1 : ℤ) ≤ (Grid.new 3 2 : Grid ℕ)._height := by decide
  have h2 := C17_grid_index (Grid.new 3 2 : Grid ℕ) 2 1 hw hh
  exact ⟨⟨hw, hh⟩, by decide,
    by decide, by decide, by decide, by decide, h2.2.2.1 (by decide) (by decide) (by decide)
      (by decide)⟩

end GridJs

/-! ## Continuity of the sampled value in `x` -/

namespace NoiseJs

section Continuity

variable {K : Type} [LinearOrderedField K]

theorem mix_abs_le (a b t m : K) (ha : |a| ≤ m) (hb : |b| ≤ m) (h0 : 0 ≤ t) (h1 : t ≤ 1) :
    |NoiseSpec.mix a b t| ≤ m := by
  obtain ⟨ha1, ha2⟩ := abs_le.mp ha
  obtain ⟨hb1, hb2⟩ := abs_le.mp hb
  have e : NoiseSpec.mix a b t = (1 - t) * a + t * b := by
    unfold NoiseSpec.mix
    ring
  rw [e, abs_le]
  have h2 : 0 ≤ 1 - t := by linarith
  constructor
  · nlinarith [mul_le_mul_of_nonneg_left ha1 h2, mul_le_mul_of_nonneg_left hb1 h0]
  · nlinarith [mul_le_mul_of_nonneg_left ha2 h2, mul_le_mul_of_nonneg_left hb2 h0]

/-- Every lattice has a bound on the absolute value of its wrapped reads. -/
theorem latticeAt_bounded (lattice : List K) :
    ∃ m : K, 0 ≤ m ∧ ∀ n : ℤ, |NoiseSpec.latticeAt lattice n| ≤ m := by
  have hmem : ∃ m : K, 0 ≤ m ∧ ∀ v : K, v ∈ lattice → |v| ≤ m := by
    induction lattice with
    | nil => exact ⟨0, le_refl _, fun v hv => by simp at hv⟩
    | cons w l ih =>
      obtain ⟨m, hm0, hm⟩ := ih
      refine ⟨|w| + m, add_nonneg (abs_nonneg w) hm0, fun v hv => ?_⟩
      rcases List.mem_cons.mp hv with rfl | hv
      · linarith
      · linarith [hm v hv, abs_nonneg w]
  obtain ⟨m, hm0, hm⟩ := hmem
  refine ⟨m, hm0, fun n => ?_⟩
  rw [NoiseSpec.latticeAt, List.getD_eq_getElem?_getD]
  cases h : lattice[(n % 4096).toNat]? with
  | none => simpa using hm0
  | some v => exact hm v (List.getElem?_mem h)

/-- Within one cell the interpolated value is affine in the X weight, with a
slope bounded by twice the lattice bound. -/
theorem cellValue_sub_le (lattice : List K) (m : K)
    (hm : ∀ n : ℤ, |NoiseSpec.latticeAt lattice n| ≤ m) (base : ℤ) (wx wx1 wy wz : K)
    (hy0 : 0 ≤ wy) (hy1 : wy ≤ 1) (hz0 : 0 ≤ wz) (hz1 : wz ≤ 1) :
    |NoiseSpec.cellValue lattice base wx1 wy wz - NoiseSpec.cellValue lattice base wx wy wz|
      ≤ 2 * m * |wx1 - wx| := by
  have hd : ∀ i j : ℤ, |NoiseSpec.latticeAt lattice i - NoiseSpec.latticeAt lattice j| ≤ 2 * m :=
    fun i j => by
      have h1 := abs_sub (NoiseSpec.latticeAt lattice i) (NoiseSpec.latticeAt lattice j)
      linarith [hm i, hm j]
  have e : NoiseSpec.cellValue lattice base wx1 wy wz - NoiseSpec.cellValue lattice base wx wy wz
      = (wx1 - wx) * NoiseSpec.mix
          (NoiseSpec.mix
            (NoiseSpec.latticeAt lattice (base + 1) - NoiseSpec.latticeAt lattice base)
            (NoiseSpec.latticeAt lattice (base + 16 + 1)
              - NoiseSpec.latticeAt lattice (base + 16)) wy)
          (NoiseSpec.mix
            (NoiseSpec.latticeAt lattice (base + 256 + 1)
              - NoiseSpec.latticeAt lattice (base + 256))
            (NoiseSpec.latticeAt lattice (base + 256 + 16 + 1)
              - NoiseSpec.latticeAt lattice (base + 256 + 16)) wy) wz := by
    unfold NoiseSpec.cellValue NoiseSpec.mix
    ring
  rw [e, abs_mul, mul_comm]
  exact mul_le_mul_of_nonneg_right
    (mix_abs_le _ _ _ _ (mix_abs_le _ _ _ _ (hd _ _) (hd _ _) hy0 hy1)
      (mix_abs_le _ _ _ _ (hd _ _) (hd _ _) hy0 hy1) hz0 hz1)
    (abs_nonneg _)

/-- At a cell boundary the value with X weight `1` in one cell is the value
with X weight `0` in the next. -/
theorem cellValue_boundary (lattice : List K) (base : ℤ) (wy wz : K) :
    NoiseSpec.cellValue lattice base 1 wy wz = NoiseSpec.cellValue lattice (base + 1) 0 wy wz := by
  have e1 : base + 1 + 16 = base + 16 + 1 := by ring
  have e2 : base + 1 + 256 = base + 256 + 1 := by ring
  have e3 : base + 256 + 1 + 16 = base + 256 + 16 + 1 := by ring
  unfold NoiseSpec.cellValue NoiseSpec.mix
  rw [e1, e2, e3]
  ring

theorem scaled_cosine_one (env : MathEnv K) (hA : env.CosLike) : scaled_cosine env 1 = 1 := by
  rw [scaled_cosine, one_mul, hA.cos_pi]
  norm_num

theorem scaled_cosine_lip (env : MathEnv K) (hA : env.CosLike) (u v : K) :
    |scaled_cosine env u - scaled_cosine env v| ≤ env.pi / 2 * |u - v| := by
  have e : scaled_cosine env u - scaled_cosine env v
      = 1 / 2 * (env.cos (v * env.pi) - env.cos (u * env.pi)) := by
    unfold scaled_cosine
    ring
  have h := hA.cos_lip (v * env.pi) (u * env.pi)
  have h2 : |v * env.pi - u * env.pi| = env.pi * |u - v| := by
    rw [← sub_mul, abs_mul, abs_of_nonneg hA.pi_nonneg, abs_sub_comm, mul_comm]
  rw [e, abs_mul, abs_of_pos (by norm_num : (0 : K) < 1 / 2)]
  rw [h2] at h
  linarith

/-- The interpolated value along X, moving forward by less than one cell:
its change is at most `2 * m * (π / 2)` times the distance moved. -/
theorem cell_lipschitz_forward [FloorRing K] (env : MathEnv K) (hA : env.CosLike)
    (lattice : List K) (m : K) (hm : ∀ n : ℤ, |NoiseSpec.latticeAt lattice n| ≤ m) (B : ℤ)
    (wy wz : K) (hy0 : 0 ≤ wy) (hy1 : wy ≤ 1) (hz0 : 0 ≤ wz) (hz1 : wz ≤ 1) (t0 t : K)
    (h01 : t0 ≤ t) (h1 : t - t0 < 1) :
    |NoiseSpec.cellValue lattice (⌊t⌋ + B) (scaled_cosine env (Int.fract t)) wy wz
        - NoiseSpec.cellValue lattice (⌊t0⌋ + B) (scaled_cosine env (Int.fract t0)) wy wz|
      ≤ 2 * m * (env.pi / 2) * (t - t0) := by
  have hm0 : 0 ≤ m := le_trans (abs_nonneg _) (hm 0)
  have hfl1 : ⌊t0⌋ ≤ ⌊t⌋ := Int.floor_mono h01
  have hfl2 : ⌊t⌋ ≤ ⌊t0⌋ + 1 := by
    rw [← Int.floor_add_one]
    exact Int.floor_mono (by linarith)
  have hcases : ⌊t⌋ = ⌊t0⌋ ∨ ⌊t⌋ = ⌊t0⌋ + 1 := by omega
  have hu0 := Int.fract_nonneg t0
  have hu1 := Int.fract_lt_one t0
  have hv0 := Int.fract_nonneg t
  rcases hcases with hc | hc
  · have hfr : Int.fract t - Int.fract t0 = t - t0 := by
      rw [Int.fract, Int.fract, hc]
      ring
    have h2 := cellValue_sub_le lattice m hm (⌊t0⌋ + B) (scaled_cosine env (Int.fract t0))
      (scaled_cosine env (Int.fract t)) wy wz hy0 hy1 hz0 hz1
    have h3 := scaled_cosine_lip env hA (Int.fract t) (Int.fract t0)
    rw [hfr, abs_of_nonneg (by linarith : 0 ≤ t - t0)] at h3
    rw [hc]
    calc _ ≤ 2 * m * |scaled_cosine env (Int.fract t) - scaled_cosine env (Int.fract t0)| := h2
      _ ≤ 2 * m * (env.pi / 2 * (t - t0)) :=
        mul_le_mul_of_nonneg_left h3 (by linarith)
      _ = 2 * m * (env.pi / 2) * (t - t0) := by ring
  · have hfr : Int.fract t + (1 - Int.fract t0) = t - t0 := by
      rw [Int.fract, Int.fract, hc]
      push_cast
      ring
    have hb : ⌊t⌋ + B = ⌊t0⌋ + B + 1 := by
      rw [hc]
      ring
    have h2 := cellValue_sub_le lattice m hm (⌊t0⌋ + B + 1) 0
      (scaled_cosine env (Int.fract t)) wy wz hy0 hy1 hz0 hz1
    have h3 := cellValue_sub_le lattice m hm (⌊t0⌋ + B) (scaled_cosine env (Int.fract t0)) 1
      wy wz hy0 hy1 hz0 hz1
    have h4 := scaled_cosine_lip env hA (Int.fract t) 0
    have h5 := scaled_cosine_lip env hA 1 (Int.fract t0)
    rw [scaled_cosine_zero env hA.cos_zero] at h4
    simp only [sub_zero] at h4
    rw [abs_of_nonneg hv0] at h4
    rw [scaled_cosine_one env hA, abs_of_nonneg (by linarith : 0 ≤ 1 - Int.fract t0)] at h5
    rw [sub_zero] at h2
    have hbd := cellValue_boundary lattice (⌊t0⌋ + B) wy wz
    rw [hb]
    have hsplit : NoiseSpec.cellValue lattice (⌊t0⌋ + B + 1) (scaled_cosine env (Int.fract t)) wy wz
          - NoiseSpec.cellValue lattice (⌊t0⌋ + B) (scaled_cosine env (Int.fract t0)) wy wz
        = (NoiseSpec.cellValue lattice (⌊t0⌋ + B + 1) (scaled_cosine env (Int.fract t)) wy wz
            - NoiseSpec.cellValue lattice (⌊t0⌋ + B + 1) 0 wy wz)
          + (NoiseSpec.cellValue lattice (⌊t0⌋ + B) 1 wy wz
            - NoiseSpec.cellValue lattice (⌊t0⌋ + B) (scaled_cosine env (Int.fract t0)) wy wz) := by
      rw [hbd]
      ring
    rw [hsplit]
    have h6 : 2 * m * |scaled_cosine env (Int.fract t)| ≤ 2 * m * (env.pi / 2 * Int.fract t) :=
      mul_le_mul_of_nonneg_left h4 (by linarith)
    have h7 : 2 * m * |1 - scaled_cosine env (Int.fract t0)|
        ≤ 2 * m * (env.pi / 2 * (1 - Int.fract t0)) :=
      mul_le_mul_of_nonneg_left h5 (by linarith)
    calc _ ≤ _ := abs_add _ _
      _ ≤ 2 * m * (env.pi / 2 * Int.fract t) + 2 * m * (env.pi / 2 * (1 - Int.fract t0)) := by
        linarith
      _ = 2 * m * (env.pi / 2) * (Int.fract t + (1 - Int.fract t0)) := by ring
      _ = 2 * m * (env.pi / 2) * (t - t0) := by rw [hfr]

/-- The interpolated value along X between two points less than one cell
apart, in either order. -/
theorem cell_lipschitz [FloorRing K] (env : MathEnv K) (hA : env.CosLike)
    (lattice : List K) (m : K) (hm : ∀ n : ℤ, |NoiseSpec.latticeAt lattice n| ≤ m) (B : ℤ)
    (wy wz : K) (hy0 : 0 ≤ wy) (hy1 : wy ≤ 1) (hz0 : 0 ≤ wz) (hz1 : wz ≤ 1) (t0 t : K)
    (h1 : |t - t0| < 1) :
    |NoiseSpec.cellValue lattice (⌊t⌋ + B) (scaled_cosine env (Int.fract t)) wy wz
        - NoiseSpec.cellValue lattice (⌊t0⌋ + B) (scaled_cosine env (Int.fract t0)) wy wz|
      ≤ 2 * m * (env.pi / 2) * |t - t0| := by
  rcases le_total t0 t with h | h
  · rw [abs_of_nonneg (by linarith : 0 ≤ t - t0)] at h1 ⊢
    exact cell_lipschitz_forward env hA lattice m hm B wy wz hy0 hy1 hz0 hz1 t0 t h h1
  · rw [abs_sub_comm t t0] at h1 ⊢
    rw [abs_of_nonneg (by linarith : 0 ≤ t0 - t)] at h1 ⊢
    rw [abs_sub_comm]
    exact cell_lipschitz_forward env hA lattice m hm B wy wz hy0 hy1 hz0 hz1 t t0 h h1

/-- The value of octave `k` as a function of the first coordinate: its change
between two coordinates whose scaled distance is below one cell. -/
theorem octaveValueAt_lipschitz [FloorRing K] (env : MathEnv K) (hA : env.CosLike)
    (lattice : List K) (m : K) (hm : ∀ n : ℤ, |NoiseSpec.latticeAt lattice n| ≤ m)
    (a a1 b c : K) (k : ℕ) (h1 : |a1 - a| * 2 ^ k < 1) :
    |NoiseSpec.octaveValueAt env lattice a1 b c k - NoiseSpec.octaveValueAt env lattice a b c k|
      ≤ 2 * m * (env.pi / 2) * 2 ^ k * |a1 - a| := by
  have hy := scaled_cosine_mem env hA.cos_mem (Int.fract (b * 2 ^ k))
  have hz := scaled_cosine_mem env hA.cos_mem (Int.fract (c * 2 ^ k))
  have hp : (0 : K) < 2 ^ k := pow_pos (by norm_num) k
  have hd : |a1 * 2 ^ k - a * 2 ^ k| = |a1 - a| * 2 ^ k := by
    rw [← sub_mul, abs_mul, abs_of_pos hp]
  have h := cell_lipschitz env hA lattice m hm (16 * ⌊b * 2 ^ k⌋ + 256 * ⌊c * 2 ^ k⌋)
    _ _ hy.1 hy.2 hz.1 hz.2 (a * 2 ^ k) (a1 * 2 ^ k) (by rw [hd]; exact h1)
  rw [hd] at h
  unfold NoiseSpec.octaveValueAt
  rw [add_assoc ⌊a1 * 2 ^ k⌋, add_assoc ⌊a * 2 ^ k⌋]
  calc _ ≤ _ := h
    _ = 2 * m * (env.pi / 2) * 2 ^ k * |a1 - a| := by ring

/-- The sampled value is locally Lipschitz in `x` at every point: within
`1 / 2 ^ N` of `x0`, where `N` is the number of octaves the loop runs, the
value changes by at most a constant times the displacement. -/
theorem noise_locally_lipschitz [FloorRing K] (env : MathEnv K) (hA : env.CosLike)
    (e : Noise K) (y z x0 : K) :
    ∃ C δ : K, 0 ≤ C ∧ 0 < δ ∧ ∀ d : K, |d| < δ →
      |(e.noise env (x0 + d) y z).1 - (e.noise env x0 y z).1| ≤ C * |d| := by
  obtain ⟨m, hm0, hm⟩ := latticeAt_bounded (ensurePerlin env e._perlin)
  have hpi := hA.pi_nonneg
  refine ⟨∑ k in Finset.range ⌈e._perlin_octaves⌉₊,
      2 * m * (env.pi / 2) * 2 ^ k * |1 / 2 * e._perlin_amp_falloff ^ k|,
    1 / 2 ^ ⌈e._perlin_octaves⌉₊, ?_, ?_, fun d hd => ?_⟩
  · refine Finset.sum_nonneg fun k _ => ?_
    have hp : (0 : K) ≤ 2 ^ k := pow_nonneg (by norm_num) k
    exact mul_nonneg (mul_nonneg (mul_nonneg (by linarith) (by linarith)) hp) (abs_nonneg _)
  · exact div_pos one_pos (pow_pos (by norm_num) _)
  · rw [noise_eq_sum, noise_eq_sum, ← Finset.sum_sub_distrib, Finset.sum_mul]
    refine le_trans (Finset.abs_sum_le_sum_abs _ _) (Finset.sum_le_sum fun k hk => ?_)
    have hkN : k ≤ ⌈e._perlin_octaves⌉₊ := (Finset.mem_range.mp hk).le
    have hpk : (0 : K) < 2 ^ k := pow_pos (by norm_num) k
    have hpN : (0 : K) < 2 ^ ⌈e._perlin_octaves⌉₊ := pow_pos (by norm_num) _
    have hle : (2 : K) ^ k ≤ 2 ^ ⌈e._perlin_octaves⌉₊ :=
      pow_le_pow_right₀ (by norm_num) hkN
    have hda : |stripSign (x0 + d) - stripSign x0| ≤ |d| := by
      rw [stripSign_eq_abs, stripSign_eq_abs]
      have := abs_abs_sub_abs_le_abs_sub (x0 + d) x0
      rwa [add_sub_cancel_left] at this
    have hdN : |d| * 2 ^ ⌈e._perlin_octaves⌉₊ < 1 := by
      rw [lt_div_iff₀ hpN] at hd
      exact hd
    have hsmall : |stripSign (x0 + d) - stripSign x0| * 2 ^ k < 1 := by
      have h1 : |stripSign (x0 + d) - stripSign x0| * 2 ^ k ≤ |d| * 2 ^ ⌈e._perlin_octaves⌉₊ :=
        mul_le_mul hda hle hpk.le (abs_nonneg d)
      linarith
    have hL := octaveValueAt_lipschitz env hA (ensurePerlin env e._perlin) m hm
      (stripSign x0) (stripSign (x0 + d)) (stripSign y) (stripSign z) k hsmall
    rw [← sub_mul, abs_mul]
    have hc0 : 0 ≤ 2 * m * (env.pi / 2) * 2 ^ k :=
      mul_nonneg (mul_nonneg (by linarith) (by linarith)) hpk.le
    have hw := abs_nonneg (1 / 2 * e._perlin_amp_falloff ^ k)
    calc _ ≤ 2 * m * (env.pi / 2) * 2 ^ k * |stripSign (x0 + d) - stripSign x0|
          * |1 / 2 * e._perlin_amp_falloff ^ k| := mul_le_mul_of_nonneg_right hL hw
      _ ≤ 2 * m * (env.pi / 2) * 2 ^ k * |d| * |1 / 2 * e._perlin_amp_falloff ^ k| :=
        mul_le_mul_of_nonneg_right (mul_le_mul_of_nonneg_left hda hc0) hw
      _ = 2 * m * (env.pi / 2) * 2 ^ k * |1 / 2 * e._perlin_amp_falloff ^ k| * |d| := by ring

end Continuity

/-! ## The real cosine -/

theorem abs_sin_le_abs (u : ℝ) : |Real.sin u| ≤ |u| := by
  have key : ∀ v : ℝ, 0 ≤ v → |Real.sin v| ≤ v := by
    intro v hv
    rw [abs_le]
    refine ⟨?_, Real.sin_le hv⟩
    by_cases h1 : v ≤ 1
    · have : 0 ≤ Real.sin v :=
        Real.sin_nonneg_of_nonneg_of_le_pi hv (by linarith [Real.pi_gt_three])
      linarith
    · linarith [Real.neg_one_le_sin v]
  rcases le_total 0 u with h | h
  · rw [abs_of_nonneg h]
    exact key u h
  · have := key (-u) (by linarith)
    rw [Real.sin_neg, abs_neg] at this
    rw [abs_of_nonpos h]
    exact this

theorem abs_cos_sub_cos_le (a b : ℝ) : |Real.cos a - Real.cos b| ≤ |a - b| := by
  rw [Real.cos_sub_cos, abs_mul, abs_mul]
  have h1 := Real.abs_sin_le_one ((a + b) / 2)
  have h2 := abs_sin_le_abs ((a - b) / 2)
  have h3 : |(a - b) / 2| = |a - b| / 2 := by
    rw [abs_div, abs_of_pos (by norm_num : (0 : ℝ) < 2)]
  have h4 : |(-2 : ℝ)| = 2 := by norm_num
  rw [h4]
  rw [h3] at h2
  have h5 := abs_nonneg (Real.sin ((a - b) / 2))
  have h6 := abs_nonneg (Real.sin ((a + b) / 2))
  nlinarith [mul_le_mul h1 h2 h5 (by norm_num : (0 : ℝ) ≤ 1)]

/-- The real cosine and `π` have the properties the continuity proof uses. -/
theorem real_cosLike (rnd : ℕ → ℝ) : (⟨Real.cos, Real.pi, rnd⟩ : MathEnv ℝ).CosLike :=
  { cos_zero := Real.cos_zero
    cos_pi := Real.cos_pi
    cos_mem := fun t => ⟨Real.neg_one_le_cos t, Real.cos_le_one t⟩
    cos_lip := abs_cos_sub_cos_le
    pi_nonneg := Real.pi_pos.le }

/-- C12 (continuity in `x`): with the real cosine, for every engine (any
lattice, octave count and falloff), every `y`, `z` and every `x0`, whether or
not a higher octave carries there, `x ↦ noise(x, y, z)` is continuous at `x0`
and, near `x0`, changes by at most a constant times the displacement. -/
theorem C12_noise_continuous_x (rnd : ℕ → ℝ) (e : Noise ℝ) (y z x0 : ℝ) :
    ContinuousAt (fun x : ℝ => (e.noise ⟨Real.cos, Real.pi, rnd⟩ x y z).1) x0 ∧
      ∃ C δ : ℝ, 0 ≤ C ∧ 0 < δ ∧ ∀ d : ℝ, |d| < δ →
        |(e.noise ⟨Real.cos, Real.pi, rnd⟩ (x0 + d) y z).1
            - (e.noise ⟨Real.cos, Real.pi, rnd⟩ x0 y z).1| ≤ C * |d| := by
  obtain ⟨C, δ, hC, hδ, h⟩ := noise_locally_lipschitz _ (real_cosLike rnd) e y z x0
  refine ⟨?_, C, δ, hC, hδ, h⟩
  rw [Metric.continuousAt_iff]
  intro ε hε
  have hC1 : 0 < C + 1 := by linarith
  refine ⟨min δ (ε / (C + 1)), lt_min hδ (div_pos hε hC1), fun x hx => ?_⟩
  rw [Real.dist_eq] at hx ⊢
  have hx1 : |x - x0| < δ := lt_of_lt_of_le hx (min_le_left _ _)
  have hx2 : |x - x0| < ε / (C + 1) := lt_of_lt_of_le hx (min_le_right _ _)
  have hb := h (x - x0) hx1
  rw [add_sub_cancel] at hb
  have h3 : |x - x0| * (C + 1) < ε := (lt_div_iff₀ hC1).mp hx2
  have h4 : 0 ≤ |x - x0| := abs_nonneg _
  show |(e.noise ⟨Real.cos, Real.pi, rnd⟩ x y z).1
    - (e.noise ⟨Real.cos, Real.pi, rnd⟩ x0 y z).1| < ε
  nlinarith

end NoiseJs
